import Mathlib

/-!
Verification development for an ordered hash map built from a hash table
whose buckets are AVL trees (files src/hash_table.rs and src/hash_map.rs).

The embedding is functional: a bucket is a binary tree carrying a stored
height field, the table is a list of buckets plus the live-bucket list
(the circular sentinel list is represented by the list of live bucket
indices in list order), and the map facade composes the table with a hash
function.  Machine pointers disappear: an entry is the record of its
hash value, key and value, and pointer identity coincides with equality
of the (hash_val, key) pair, which is unique among live entries.

The AVL node engine (avl_node.rs) and the intrusive list (list.rs) are
not part of the sources available under src/; per the spec they are the
classical AVL insert/erase with rotations and the circular list, and the
corresponding definitions below are modelled from the spec (marked in
their doc comments).  Everything in hash_table.rs and hash_map.rs is
translated directly.
-/

set_option maxHeartbeats 1600000

universe u

/-- Internal hash entry: the record stored for one key.  Combines the
intrusive HashNode (hash_val, key) of hash_table.rs with the value
pointer of InternalHashEntry in hash_map.rs; the (K, V) pair lives in
the kv slab and is owned by the entry. -/
structure HashEntry (K V : Type) where
  hash_val : Nat
  key : K
  value : V
  deriving DecidableEq

/-- Comparison key of an entry: primary the hash value, tie-break the user key. -/
def ekey {K V : Type} (e : HashEntry K V) : Nat × K := (e.hash_val, e.key)

/-- Strict lexicographic order on (hash_val, key) used by the bucket trees. -/
def eLt {K V : Type} [LT K] (a b : HashEntry K V) : Prop :=
  a.hash_val < b.hash_val ∨ (a.hash_val = b.hash_val ∧ a.key < b.key)

instance {K V : Type} [LinearOrder K] (a b : HashEntry K V) : Decidable (eLt a b) := by
  unfold eLt; infer_instance

/-- Binary tree with a stored height field, the shape of the intrusive
AVL nodes (left, right, height; the parent pointer is implicit in the
functional representation). -/
inductive AVLTree (α : Type u) where
  | nil : AVLTree α
  | node (l : AVLTree α) (a : α) (r : AVLTree α) (h : Nat) : AVLTree α
  deriving DecidableEq

namespace AVLTree

/-- Stored height of a tree; an empty subtree has height 0, as in avl_node.rs. -/
def hgt {α : Type u} : AVLTree α → Nat
  | .nil => 0
  | .node _ _ _ h => h

/-- Smart constructor recomputing the height as 1 + max of the children,
the update rule of the AVL engine. -/
def mk {α : Type u} (l : AVLTree α) (a : α) (r : AVLTree α) : AVLTree α :=
  .node l a r (1 + max l.hgt r.hgt)

/-- In-order traversal; the iteration order inside one bucket. -/
def inorder {α : Type u} : AVLTree α → List α
  | .nil => []
  | .node l a r _ => inorder l ++ a :: inorder r

/-- Post-order traversal; the order in which recursive_hash_add and
recurse_destroy visit a bucket (left, right, node). -/
def postorder {α : Type u} : AVLTree α → List α
  | .nil => []
  | .node l a r _ => postorder l ++ postorder r ++ [a]

/-- Stored heights are consistent: every node stores 1 + max of its
children's stored heights (invariant of the AVL engine). -/
def HtOk {α : Type u} : AVLTree α → Prop
  | .nil => True
  | .node l _ r h => HtOk l ∧ HtOk r ∧ h = 1 + max l.hgt r.hgt

/-- Rebalancing step after an insertion or erasure in one child.
Modelled from the spec: single rotation when the heavier child leans the
same way (or is balanced), double rotation in the zig-zag case; heights
are recomputed as 1 + max. -/
def balance {α : Type u} (l : AVLTree α) (a : α) (r : AVLTree α) : AVLTree α :=
  if r.hgt + 1 < l.hgt then
    match l with
    | .nil => mk l a r
    | .node ll la lr _ =>
      if lr.hgt ≤ ll.hgt then mk ll la (mk lr a r)
      else
        match lr with
        | .nil => mk ll la (mk lr a r)
        | .node lrl lra lrr _ => mk (mk ll la lrl) lra (mk lrr a r)
  else if l.hgt + 1 < r.hgt then
    match r with
    | .nil => mk l a r
    | .node rl ra rr _ =>
      if rl.hgt ≤ rr.hgt then mk (mk l a rl) ra rr
      else
        match rl with
        | .nil => mk (mk l a rl) ra rr
        | .node rll rla rlr _ => mk (mk l a rll) rla (mk rlr ra rr)
  else mk l a r

end AVLTree

/-- Descent of HashTable::hash_track combined with avl_node::link_node and
avl_node::node_post_insert: descend comparing the hash first and the key on
equal hashes; on an equal (hash, key) return the existing entry and leave
the tree unchanged; otherwise attach the new entry as a leaf and rebalance
on the way up (rebalancing modelled from the spec, the descent from the
source of hash_track). -/
def treeAdd {K V : Type} [LinearOrder K] (e : HashEntry K V) :
    AVLTree (HashEntry K V) → AVLTree (HashEntry K V) × Option (HashEntry K V)
  | .nil => (AVLTree.mk .nil e .nil, none)
  | .node l a r ht =>
    if e.hash_val = a.hash_val then
      match compare e.key a.key with
      | .eq => (.node l a r ht, some a)
      | .lt =>
        match treeAdd e l with
        | (l', none) => (AVLTree.balance l' a r, none)
        | (_, some d) => (.node l a r ht, some d)
      | .gt =>
        match treeAdd e r with
        | (r', none) => (AVLTree.balance l a r', none)
        | (_, some d) => (.node l a r ht, some d)
    else if e.hash_val < a.hash_val then
      match treeAdd e l with
      | (l', none) => (AVLTree.balance l' a r, none)
      | (_, some d) => (.node l a r ht, some d)
    else
      match treeAdd e r with
      | (r', none) => (AVLTree.balance l a r', none)
      | (_, some d) => (.node l a r ht, some d)

/-- Descent of HashTable::hash_find: compare hashes, on equal hashes
compare keys, stop on equality. -/
def treeFind {K V : Type} [LinearOrder K] (hv : Nat) (k : K) :
    AVLTree (HashEntry K V) → Option (HashEntry K V)
  | .nil => none
  | .node l a r _ =>
    if hv = a.hash_val then
      match compare k a.key with
      | .gt => treeFind hv k r
      | .eq => some a
      | .lt => treeFind hv k l
    else if hv < a.hash_val then treeFind hv k l
    else treeFind hv k r

/-- Detach the in-order minimum of a tree, rebalancing on the way up.
Modelled from the spec: used by erase_node to find the in-order successor
of a node with two children. -/
def delMin {K V : Type} : AVLTree (HashEntry K V) →
    Option (HashEntry K V × AVLTree (HashEntry K V))
  | .nil => none
  | .node l a r _ =>
    match delMin l with
    | none => some (a, r)
    | some (m, l') => some (m, AVLTree.balance l' a r)

/-- Erase the entry with the given (hash, key) from a bucket tree.
Modelled from the spec for avl_node::erase_node: a victim with two
children is replaced by its in-order successor, otherwise by its only
child; heights are updated and rotations applied on the way back up.
The descent to the victim follows the comparison scheme of hash_find. -/
def treeErase {K V : Type} [LinearOrder K] (hv : Nat) (k : K) :
    AVLTree (HashEntry K V) → AVLTree (HashEntry K V)
  | .nil => .nil
  | .node l a r _ =>
    if hv = a.hash_val then
      match compare k a.key with
      | .eq =>
        match delMin r with
        | none => l
        | some (m, r') => AVLTree.balance l m r'
      | .lt => AVLTree.balance (treeErase hv k l) a r
      | .gt => AVLTree.balance l a (treeErase hv k r)
    else if hv < a.hash_val then AVLTree.balance (treeErase hv k l) a r
    else AVLTree.balance l a (treeErase hv k r)

/-- List-level reference: first entry whose (hash_val, key) equals the
target, scanning left to right. -/
def findL {K V : Type} [DecidableEq K] (hv : Nat) (k : K) :
    List (HashEntry K V) → Option (HashEntry K V)
  | [] => none
  | a :: l => if a.hash_val = hv ∧ a.key = k then some a else findL hv k l

/-- List-level reference: insert an entry in front of the first strictly
greater element of a sorted list. -/
def insL {K V : Type} [LinearOrder K] (e : HashEntry K V) :
    List (HashEntry K V) → List (HashEntry K V)
  | [] => [e]
  | a :: l => if eLt e a then e :: a :: l else a :: insL e l

/-- List-level reference: remove the first entry whose (hash_val, key)
equals the target. -/
def delL {K V : Type} [DecidableEq K] (hv : Nat) (k : K) :
    List (HashEntry K V) → List (HashEntry K V)
  | [] => []
  | a :: l => if a.hash_val = hv ∧ a.key = k then l else a :: delL hv k l

/-- Entry following the one with the given (hash_val, key) in a list;
the in-order successor (avl_node::next) expressed on the in-order
traversal, as the spec describes the standard successor walk. -/
def listSucc {K V : Type} [DecidableEq K] (hv : Nat) (k : K) :
    List (HashEntry K V) → Option (HashEntry K V)
  | [] => none
  | a :: l => if a.hash_val = hv ∧ a.key = k then l.head? else listSucc hv k l

/-- Successor of an element in the circular live-bucket list; none when
the element is last (its successor is the sentinel).  Modelled from the
spec for the intrusive list of list.rs. -/
def nextInList : List Nat → Nat → Option Nat
  | [], _ => none
  | x :: l, i => if x = i then l.head? else nextInList l i

/-- Concatenation of a list of lists (the entries of the live buckets in
live-list order). -/
def joinL {α : Type u} : List (List α) → List α
  | [] => []
  | l :: ls => l ++ joinL ls

section OrderLemmas

variable {K V : Type} [LinearOrder K]

theorem eLt_trans {a b c : HashEntry K V} (h1 : eLt a b) (h2 : eLt b c) : eLt a c := by
  rcases h1 with h1 | ⟨h1, h1k⟩ <;> rcases h2 with h2 | ⟨h2, h2k⟩
  · exact Or.inl (h1.trans h2)
  · exact Or.inl (h2 ▸ h1)
  · exact Or.inl (h1 ▸ h2)
  · exact Or.inr ⟨h1.trans h2, h1k.trans h2k⟩

theorem eLt_irrefl {a : HashEntry K V} : ¬ eLt a a := by
  rintro (h | ⟨-, h⟩) <;> exact lt_irrefl _ h

theorem eLt_asymm {a b : HashEntry K V} (h : eLt a b) : ¬ eLt b a :=
  fun h' => eLt_irrefl (eLt_trans h h')

theorem eLt_ne {a b : HashEntry K V} (h : eLt a b) :
    ¬ (a.hash_val = b.hash_val ∧ a.key = b.key) := by
  rintro ⟨he, hk⟩
  rcases h with h | ⟨-, h⟩
  · exact absurd he (Nat.ne_of_lt h)
  · exact absurd hk (ne_of_lt h)

theorem eLt_trichot (a b : HashEntry K V) :
    eLt a b ∨ eLt b a ∨ (a.hash_val = b.hash_val ∧ a.key = b.key) := by
  rcases Nat.lt_trichotomy a.hash_val b.hash_val with h | h | h
  · exact Or.inl (Or.inl h)
  · rcases lt_trichotomy a.key b.key with hk | hk | hk
    · exact Or.inl (Or.inr ⟨h, hk⟩)
    · exact Or.inr (Or.inr ⟨h, hk⟩)
    · exact Or.inr (Or.inl (Or.inr ⟨h.symm, hk⟩))
  · exact Or.inr (Or.inl (Or.inl h))

end OrderLemmas

namespace AVLTree

variable {α : Type u}

@[simp] theorem inorder_nil : inorder (α := α) .nil = [] := rfl

@[simp] theorem inorder_node {l r : AVLTree α} {a : α} {h : Nat} :
    inorder (.node l a r h) = inorder l ++ a :: inorder r := rfl

@[simp] theorem inorder_mk {l r : AVLTree α} {a : α} :
    inorder (mk l a r) = inorder l ++ a :: inorder r := rfl

theorem inorder_balance {l r : AVLTree α} {a : α} :
    inorder (balance l a r) = inorder l ++ a :: inorder r := by
  unfold balance
  repeat' split
  all_goals simp [mk, inorder]

theorem inorder_eq_nil {t : AVLTree α} : inorder t = [] ↔ t = .nil := by
  cases t with
  | nil => simp
  | node l a r h => simp

@[simp] theorem HtOk_nil : HtOk (α := α) .nil := trivial

theorem HtOk_mk {l r : AVLTree α} {a : α} (hl : HtOk l) (hr : HtOk r) :
    HtOk (mk l a r) := ⟨hl, hr, rfl⟩

theorem HtOk_balance {l r : AVLTree α} {a : α} (hl : HtOk l) (hr : HtOk r) :
    HtOk (balance l a r) := by
  unfold balance
  repeat' split
  all_goals
    first
    | exact HtOk_mk hl hr
    | (try simp_all [HtOk]) <;> (try constructor) <;> simp_all [HtOk, mk]

theorem HtOk_node_parts {l r : AVLTree α} {a : α} {h : Nat}
    (ht : HtOk (.node l a r h)) : HtOk l ∧ HtOk r ∧ h = 1 + max l.hgt r.hgt := ht

theorem eq_nil_of_hgt_zero {t : AVLTree α} (ht : HtOk t) (h : t.hgt = 0) : t = .nil := by
  cases t with
  | nil => rfl
  | node l a r hh =>
    obtain ⟨-, -, he⟩ := ht
    simp [hgt] at h
    omega

theorem singleton_of_height_one {l r : AVLTree α} {a : α} {h : Nat}
    (ht : HtOk (.node l a r h)) (h1 : h = 1) : l = .nil ∧ r = .nil := by
  obtain ⟨hl, hr, he⟩ := ht
  have hzl : l.hgt = 0 := by omega
  have hzr : r.hgt = 0 := by omega
  exact ⟨eq_nil_of_hgt_zero hl hzl, eq_nil_of_hgt_zero hr hzr⟩

theorem postorder_perm_inorder (t : AVLTree α) : List.Perm (postorder t) (inorder t) := by
  induction t with
  | nil => simp [postorder]
  | node l a r h ihl ihr =>
    simp only [postorder, inorder]
    have step1 : List.Perm (postorder l ++ postorder r ++ [a])
        (inorder l ++ (inorder r ++ [a])) := by
      rw [List.append_assoc]
      exact ihl.append (ihr.append (List.Perm.refl _))
    have step2 : List.Perm (inorder l ++ (inorder r ++ [a]))
        (inorder l ++ a :: inorder r) :=
      (List.Perm.refl _).append (List.perm_append_singleton a _)
    exact step1.trans step2

end AVLTree

section ListLemmas

variable {K V : Type} [LinearOrder K]

theorem findL_eq_none {hv : Nat} {k : K} {l : List (HashEntry K V)} :
    findL hv k l = none ↔ ∀ a ∈ l, ¬ (a.hash_val = hv ∧ a.key = k) := by
  induction l with
  | nil => simp [findL]
  | cons a l ih =>
    by_cases h : a.hash_val = hv ∧ a.key = k
    · rw [findL, if_pos h]
      constructor
      · intro hc; exact Option.noConfusion hc
      · intro hall; exact absurd h (hall a (List.mem_cons_self _ _))
    · rw [findL, if_neg h, ih]
      constructor
      · intro hall x hx
        rcases List.mem_cons.mp hx with rfl | hx
        · exact h
        · exact hall x hx
      · intro hall x hx
        exact hall x (List.mem_cons_of_mem _ hx)

theorem findL_append (hv : Nat) (k : K) (l r : List (HashEntry K V)) :
    findL hv k (l ++ r) = (findL hv k l).or (findL hv k r) := by
  induction l with
  | nil => simp [findL]
  | cons a l ih =>
    by_cases h : a.hash_val = hv ∧ a.key = k <;> simp [findL, h, ih]

theorem findL_some_mem {hv : Nat} {k : K} {d : HashEntry K V} {l : List (HashEntry K V)}
    (h : findL hv k l = some d) : d ∈ l ∧ d.hash_val = hv ∧ d.key = k := by
  induction l with
  | nil => simp [findL] at h
  | cons a l ih =>
    by_cases ha : a.hash_val = hv ∧ a.key = k
    · simp [findL, ha] at h
      subst h
      exact ⟨List.mem_cons_self _ _, ha⟩
    · simp [findL, ha] at h
      obtain ⟨hm, hh⟩ := ih h
      exact ⟨List.mem_cons_of_mem _ hm, hh⟩

theorem findL_isSome_of_mem {hv : Nat} {k : K} {x : HashEntry K V} {l : List (HashEntry K V)}
    (hx : x ∈ l) (hm : x.hash_val = hv ∧ x.key = k) : (findL hv k l).isSome := by
  induction l with
  | nil => simp at hx
  | cons a l ih =>
    by_cases ha : a.hash_val = hv ∧ a.key = k
    · simp [findL, ha]
    · rcases List.mem_cons.mp hx with rfl | hx
      · exact absurd hm ha
      · simp [findL, ha, ih hx]

theorem insL_perm (e : HashEntry K V) (l : List (HashEntry K V)) :
    List.Perm (insL e l) (e :: l) := by
  induction l with
  | nil => simp [insL]
  | cons a l ih =>
    by_cases h : eLt e a
    · simp [insL, h]
    · simp only [insL, if_neg h]
      exact (ih.cons a).trans (List.Perm.swap e a l)

theorem insL_append_left {e a : HashEntry K V} (h : eLt e a)
    (l r : List (HashEntry K V)) : insL e (l ++ a :: r) = insL e l ++ a :: r := by
  induction l with
  | nil => simp [insL, h]
  | cons x l ih =>
    by_cases hx : eLt e x <;> simp [insL, hx, ih]

theorem insL_append_right {e : HashEntry K V} {l : List (HashEntry K V)}
    (h : ∀ x ∈ l, ¬ eLt e x) (r : List (HashEntry K V)) :
    insL e (l ++ r) = l ++ insL e r := by
  induction l with
  | nil => simp
  | cons x l ih =>
    have hx : ¬ eLt e x := h x (List.mem_cons_self _ _)
    simp only [List.cons_append, insL, if_neg hx, List.append_eq]
    rw [ih fun y hy => h y (List.mem_cons_of_mem _ hy)]

theorem mem_insL {e x : HashEntry K V} {l : List (HashEntry K V)} :
    x ∈ insL e l ↔ x = e ∨ x ∈ l := by
  rw [List.Perm.mem_iff (insL_perm e l), List.mem_cons]

theorem insL_pairwise {e : HashEntry K V} {l : List (HashEntry K V)}
    (hs : List.Pairwise eLt l)
    (habs : ∀ x ∈ l, ¬ (x.hash_val = e.hash_val ∧ x.key = e.key)) :
    List.Pairwise eLt (insL e l) := by
  induction l with
  | nil => simp [insL]
  | cons a l ih =>
    obtain ⟨ha, hl⟩ := List.pairwise_cons.mp hs
    by_cases h : eLt e a
    · rw [insL, if_pos h]
      refine List.pairwise_cons.mpr ⟨?_, hs⟩
      intro x hx
      rcases List.mem_cons.mp hx with rfl | hx
      · exact h
      · exact eLt_trans h (ha x hx)
    · rw [insL, if_neg h]
      have hae : eLt a e := by
        rcases eLt_trichot a e with h1 | h1 | h1
        · exact h1
        · exact absurd h1 h
        · exact absurd h1 (habs a (List.mem_cons_self _ _))
      refine List.pairwise_cons.mpr ⟨?_, ih hl fun x hx => habs x (List.mem_cons_of_mem _ hx)⟩
      intro x hx
      rcases mem_insL.mp hx with rfl | hx
      · exact hae
      · exact ha x hx

theorem delL_sublist (hv : Nat) (k : K) (l : List (HashEntry K V)) :
    List.Sublist (delL hv k l) l := by
  induction l with
  | nil => simp [delL]
  | cons a l ih =>
    by_cases h : a.hash_val = hv ∧ a.key = k
    · simpa [delL, h] using List.sublist_cons_self a l
    · simpa [delL, h] using ih.cons₂ a

theorem delL_eq_self {hv : Nat} {k : K} {l : List (HashEntry K V)}
    (h : ∀ a ∈ l, ¬ (a.hash_val = hv ∧ a.key = k)) : delL hv k l = l := by
  induction l with
  | nil => rfl
  | cons a l ih =>
    rw [delL, if_neg (h a (List.mem_cons_self _ _)),
      ih fun x hx => h x (List.mem_cons_of_mem _ hx)]

theorem delL_append_right {hv : Nat} {k : K} {m : List (HashEntry K V)}
    (h : ∀ y ∈ m, ¬ (y.hash_val = hv ∧ y.key = k)) (l : List (HashEntry K V)) :
    delL hv k (l ++ m) = delL hv k l ++ m := by
  induction l with
  | nil => simpa [delL] using delL_eq_self h
  | cons a l ih =>
    by_cases ha : a.hash_val = hv ∧ a.key = k <;> simp [delL, ha, ih]

theorem delL_append_left {hv : Nat} {k : K} {l : List (HashEntry K V)}
    (h : ∀ x ∈ l, ¬ (x.hash_val = hv ∧ x.key = k)) (m : List (HashEntry K V)) :
    delL hv k (l ++ m) = l ++ delL hv k m := by
  induction l with
  | nil => simp
  | cons a l ih =>
    rw [List.cons_append, delL, if_neg (h a (List.mem_cons_self _ _)),
      ih fun x hx => h x (List.mem_cons_of_mem _ hx), List.cons_append]

theorem perm_delL {hv : Nat} {k : K} {l : List (HashEntry K V)} {d : HashEntry K V}
    (h : findL hv k l = some d) : List.Perm l (d :: delL hv k l) := by
  induction l with
  | nil => simp [findL] at h
  | cons a l ih =>
    by_cases ha : a.hash_val = hv ∧ a.key = k
    · simp [findL, ha] at h
      subst h
      simp [delL, ha]
    · simp [findL, ha] at h
      rw [delL, if_neg ha]
      exact ((ih h).cons a).trans (List.Perm.swap d a _)

theorem listSucc_append {hv : Nat} {k : K} {p : List (HashEntry K V)}
    (h : ∀ x ∈ p, ¬ (x.hash_val = hv ∧ x.key = k)) (l : List (HashEntry K V)) :
    listSucc hv k (p ++ l) = listSucc hv k l := by
  induction p with
  | nil => simp
  | cons a p ih =>
    rw [List.cons_append, listSucc, if_neg (h a (List.mem_cons_self _ _)),
      ih fun x hx => h x (List.mem_cons_of_mem _ hx)]

theorem listSucc_cons_match {hv : Nat} {k : K} {a : HashEntry K V}
    (h : a.hash_val = hv ∧ a.key = k) (l : List (HashEntry K V)) :
    listSucc hv k (a :: l) = l.head? := by
  rw [listSucc, if_pos h]

end ListLemmas

theorem nextInList_append {i : Nat} {as : List Nat} (h : i ∉ as) (bs : List Nat) :
    nextInList (as ++ i :: bs) i = bs.head? := by
  induction as with
  | nil => simp [nextInList]
  | cons x as ih =>
    have hx : x ≠ i := fun hxi => h (hxi ▸ List.mem_cons_self _ _)
    rw [List.cons_append, nextInList, if_neg hx, ih fun hi => h (List.mem_cons_of_mem _ hi)]

@[simp] theorem joinL_nil {α : Type u} : joinL (α := α) [] = [] := rfl

@[simp] theorem joinL_cons {α : Type u} (l : List α) (ls : List (List α)) :
    joinL (l :: ls) = l ++ joinL ls := rfl

theorem joinL_append {α : Type u} (ls ms : List (List α)) :
    joinL (ls ++ ms) = joinL ls ++ joinL ms := by
  induction ls with
  | nil => simp
  | cons l ls ih => simp [ih]

theorem joinL_map_perm {α : Type u} {f g : Nat → List α} {is : List Nat}
    (h : ∀ i ∈ is, List.Perm (f i) (g i)) :
    List.Perm (joinL (is.map f)) (joinL (is.map g)) := by
  induction is with
  | nil => simp
  | cons i is ih =>
    simp only [List.map_cons, joinL_cons]
    exact (h i (List.mem_cons_self _ _)).append
      (ih fun j hj => h j (List.mem_cons_of_mem _ hj))

section TreeListCorrespondence

variable {K V : Type} [LinearOrder K]

theorem sorted_node_parts {l r : AVLTree (HashEntry K V)} {a : HashEntry K V} {h : Nat}
    (hs : List.Pairwise eLt (AVLTree.inorder (.node l a r h))) :
    List.Pairwise eLt l.inorder ∧ List.Pairwise eLt r.inorder ∧
      (∀ x ∈ l.inorder, eLt x a) ∧ (∀ y ∈ r.inorder, eLt a y) := by
  rw [AVLTree.inorder_node] at hs
  obtain ⟨sL, sar, hcross⟩ := List.pairwise_append.mp hs
  obtain ⟨haR, sR⟩ := List.pairwise_cons.mp sar
  exact ⟨sL, sR, fun x hx => hcross x hx a (List.mem_cons_self _ _), haR⟩

theorem no_match_of_eLt_match {hv : Nat} {k : K} {x a : HashEntry K V} (hx : eLt x a)
    (ha : a.hash_val = hv ∧ a.key = k) : ¬ (x.hash_val = hv ∧ x.key = k) := by
  rintro ⟨h1, h2⟩
  exact eLt_ne hx ⟨h1.trans ha.1.symm, h2.trans ha.2.symm⟩

theorem no_match_of_match_eLt {hv : Nat} {k : K} {a y : HashEntry K V} (hy : eLt a y)
    (ha : a.hash_val = hv ∧ a.key = k) : ¬ (y.hash_val = hv ∧ y.key = k) := by
  rintro ⟨h1, h2⟩
  exact eLt_ne hy ⟨ha.1.trans h1.symm, ha.2.trans h2.symm⟩

theorem no_match_right_of_lt {hv : Nat} {k : K} {a y : HashEntry K V} (hy : eLt a y)
    (hh : hv = a.hash_val) (hk : k < a.key) : ¬ (y.hash_val = hv ∧ y.key = k) := by
  rintro ⟨h1, h2⟩
  rcases hy with h | ⟨he, hl⟩
  · exact absurd (h1.trans hh) (Nat.ne_of_gt h)
  · have : a.key < a.key := lt_trans (h2 ▸ hl) hk
    exact lt_irrefl _ this

theorem no_match_left_of_gt {hv : Nat} {k : K} {x a : HashEntry K V} (hx : eLt x a)
    (hh : hv = a.hash_val) (hk : a.key < k) : ¬ (x.hash_val = hv ∧ x.key = k) := by
  rintro ⟨h1, h2⟩
  rcases hx with h | ⟨he, hl⟩
  · exact absurd (hh ▸ h1) (Nat.ne_of_lt h)
  · exact absurd h2 (ne_of_lt (hl.trans hk))

theorem no_match_right_of_hash_lt {hv : Nat} {k : K} {a y : HashEntry K V} (hy : eLt a y)
    (hh : hv < a.hash_val) : ¬ (y.hash_val = hv ∧ y.key = k) := by
  rintro ⟨h1, -⟩
  rcases hy with h | ⟨he, -⟩
  · exact absurd h1 (Nat.ne_of_gt (hh.trans h))
  · exact absurd h1 (Nat.ne_of_gt (he ▸ hh))

theorem no_match_left_of_hash_gt {hv : Nat} {k : K} {x a : HashEntry K V} (hx : eLt x a)
    (hh : a.hash_val < hv) : ¬ (x.hash_val = hv ∧ x.key = k) := by
  rintro ⟨h1, -⟩
  rcases hx with h | ⟨he, -⟩
  · exact absurd h1 (Nat.ne_of_lt (h.trans hh))
  · exact absurd h1 (Nat.ne_of_lt (he ▸ hh))

theorem treeFind_eq_findL {hv : Nat} {k : K} {t : AVLTree (HashEntry K V)}
    (hs : List.Pairwise eLt t.inorder) :
    treeFind hv k t = findL hv k t.inorder := by
  induction t with
  | nil => rfl
  | node l a r h ihl ihr =>
    obtain ⟨sL, sR, hLa, haR⟩ := sorted_node_parts hs
    rw [AVLTree.inorder_node, findL_append]
    by_cases h1 : hv = a.hash_val
    · rcases hc : compare k a.key with _ | _ | _
      · -- k < a.key
        have hk : k < a.key := compare_lt_iff_lt.mp hc
        have hAR : findL hv k (a :: r.inorder) = none := by
          rw [findL_eq_none]
          intro y hy
          rcases List.mem_cons.mp hy with rfl | hy
          · rintro ⟨-, h2⟩
            exact absurd h2 (ne_of_gt (h2 ▸ hk)).symm
          · exact no_match_right_of_lt (haR y hy) h1 hk
        rw [hAR, Option.or_none]
        simp only [treeFind, if_pos h1, hc]
        exact ihl sL
      · -- k = a.key
        have hk : k = a.key := compare_eq_iff_eq.mp hc
        have hL : findL hv k l.inorder = none := by
          rw [findL_eq_none]
          exact fun x hx => no_match_of_eLt_match (hLa x hx) ⟨h1.symm, hk.symm⟩
        rw [hL, Option.none_or]
        simp only [treeFind, if_pos h1, hc]
        rw [findL, if_pos ⟨h1.symm, hk.symm⟩]
      · -- a.key < k
        have hk : a.key < k := compare_gt_iff_gt.mp hc
        have hL : findL hv k l.inorder = none := by
          rw [findL_eq_none]
          exact fun x hx => no_match_left_of_gt (hLa x hx) h1 hk
        rw [hL, Option.none_or, findL, if_neg (by rintro ⟨-, h2⟩; exact absurd h2 (ne_of_gt (h2 ▸ hk)).symm)]
        simp only [treeFind, if_pos h1, hc]
        exact ihr sR
    · by_cases h2 : hv < a.hash_val
      · have hAR : findL hv k (a :: r.inorder) = none := by
          rw [findL_eq_none]
          intro y hy
          rcases List.mem_cons.mp hy with rfl | hy
          · rintro ⟨hc1, -⟩; exact absurd hc1 (Nat.ne_of_gt h2)
          · exact no_match_right_of_hash_lt (haR y hy) h2
        rw [hAR, Option.or_none]
        simp only [treeFind, if_neg h1, if_pos h2]
        exact ihl sL
      · have h3 : a.hash_val < hv := by omega
        have hL : findL hv k l.inorder = none := by
          rw [findL_eq_none]
          exact fun x hx => no_match_left_of_hash_gt (hLa x hx) h3
        rw [hL, Option.none_or, findL,
          if_neg (by rintro ⟨hc1, -⟩; exact absurd hc1 (Nat.ne_of_lt h3))]
        simp only [treeFind, if_neg h1, if_neg h2]
        exact ihr sR

end TreeListCorrespondence

section TreeAddLemmas

variable {K V : Type} [LinearOrder K]

theorem treeAdd_snd {e : HashEntry K V} {t : AVLTree (HashEntry K V)}
    (hs : List.Pairwise eLt t.inorder) :
    (treeAdd e t).2 = findL e.hash_val e.key t.inorder := by
  induction t with
  | nil => rfl
  | node l a r h ihl ihr =>
    obtain ⟨sL, sR, hLa, haR⟩ := sorted_node_parts hs
    rw [AVLTree.inorder_node, findL_append]
    by_cases h1 : e.hash_val = a.hash_val
    · rcases hc : compare e.key a.key with _ | _ | _
      · have hk : e.key < a.key := compare_lt_iff_lt.mp hc
        have hAR : findL e.hash_val e.key (a :: r.inorder) = none := by
          rw [findL_eq_none]
          intro y hy
          rcases List.mem_cons.mp hy with rfl | hy
          · rintro ⟨-, h2⟩
            exact absurd h2.symm (ne_of_lt (h2 ▸ hk))
          · exact no_match_right_of_lt (haR y hy) h1 hk
        rw [hAR, Option.or_none]
        have hsnd := ihl sL
        rcases hrec : treeAdd e l with ⟨l', d⟩
        rw [hrec] at hsnd
        cases d <;> simp only [treeAdd, if_pos h1, hc, hrec] <;> exact hsnd
      · have hk : e.key = a.key := compare_eq_iff_eq.mp hc
        have hL : findL e.hash_val e.key l.inorder = none := by
          rw [findL_eq_none]
          exact fun x hx => no_match_of_eLt_match (hLa x hx) ⟨h1.symm, hk.symm⟩
        rw [hL, Option.none_or, findL, if_pos ⟨h1.symm, hk.symm⟩]
        simp only [treeAdd, if_pos h1, hc]
      · have hk : a.key < e.key := compare_gt_iff_gt.mp hc
        have hL : findL e.hash_val e.key l.inorder = none := by
          rw [findL_eq_none]
          exact fun x hx => no_match_left_of_gt (hLa x hx) h1 hk
        rw [hL, Option.none_or, findL,
          if_neg (by rintro ⟨-, h2⟩; exact absurd h2 (ne_of_gt (h2 ▸ hk)).symm)]
        have hsnd := ihr sR
        rcases hrec : treeAdd e r with ⟨r', d⟩
        rw [hrec] at hsnd
        cases d <;> simp only [treeAdd, if_pos h1, hc, hrec] <;> exact hsnd
    · by_cases h2 : e.hash_val < a.hash_val
      · have hAR : findL e.hash_val e.key (a :: r.inorder) = none := by
          rw [findL_eq_none]
          intro y hy
          rcases List.mem_cons.mp hy with rfl | hy
          · rintro ⟨hc1, -⟩; exact absurd hc1 (Nat.ne_of_gt h2)
          · exact no_match_right_of_hash_lt (haR y hy) h2
        rw [hAR, Option.or_none]
        have hsnd := ihl sL
        rcases hrec : treeAdd e l with ⟨l', d⟩
        rw [hrec] at hsnd
        cases d <;> simp only [treeAdd, if_neg h1, if_pos h2, hrec] <;> exact hsnd
      · have h3 : a.hash_val < e.hash_val := by omega
        have hL : findL e.hash_val e.key l.inorder = none := by
          rw [findL_eq_none]
          exact fun x hx => no_match_left_of_hash_gt (hLa x hx) h3
        rw [hL, Option.none_or, findL,
          if_neg (by rintro ⟨hc1, -⟩; exact absurd hc1 (Nat.ne_of_lt h3))]
        have hsnd := ihr sR
        rcases hrec : treeAdd e r with ⟨r', d⟩
        rw [hrec] at hsnd
        cases d <;> simp only [treeAdd, if_neg h1, if_neg h2, hrec] <;> exact hsnd

theorem treeAdd_fst_of_dup {e d : HashEntry K V} {t : AVLTree (HashEntry K V)}
    (h : (treeAdd e t).2 = some d) : (treeAdd e t).1 = t := by
  cases t with
  | nil => simp [treeAdd] at h
  | node l a r ht =>
    by_cases h1 : e.hash_val = a.hash_val
    · rcases hc : compare e.key a.key with _ | _ | _
      · rcases hrec : treeAdd e l with ⟨l', d'⟩
        cases d' <;> simp [treeAdd, h1, hc, hrec] at h ⊢
      · simp [treeAdd, h1, hc]
      · rcases hrec : treeAdd e r with ⟨r', d'⟩
        cases d' <;> simp [treeAdd, h1, hc, hrec] at h ⊢
    · by_cases h2 : e.hash_val < a.hash_val
      · rcases hrec : treeAdd e l with ⟨l', d'⟩
        cases d' <;> simp [treeAdd, h1, h2, hrec] at h ⊢
      · rcases hrec : treeAdd e r with ⟨r', d'⟩
        cases d' <;> simp [treeAdd, h1, h2, hrec] at h ⊢

theorem treeAdd_fst_inorder {e : HashEntry K V} {t : AVLTree (HashEntry K V)}
    (hs : List.Pairwise eLt t.inorder)
    (hnone : findL e.hash_val e.key t.inorder = none) :
    (treeAdd e t).1.inorder = insL e t.inorder := by
  have hall := findL_eq_none.mp hnone
  induction t with
  | nil => simp [treeAdd, insL]
  | node l a r h ihl ihr =>
    obtain ⟨sL, sR, hLa, haR⟩ := sorted_node_parts hs
    rw [AVLTree.inorder_node] at hall
    have hallL : ∀ x ∈ l.inorder, ¬ (x.hash_val = e.hash_val ∧ x.key = e.key) :=
      fun x hx => hall x (List.mem_append_left _ hx)
    have hallR : ∀ y ∈ r.inorder, ¬ (y.hash_val = e.hash_val ∧ y.key = e.key) :=
      fun y hy => hall y (List.mem_append_right _ (List.mem_cons_of_mem _ hy))
    have hLnone : findL e.hash_val e.key l.inorder = none := findL_eq_none.mpr hallL
    have hRnone : findL e.hash_val e.key r.inorder = none := findL_eq_none.mpr hallR
    by_cases h1 : e.hash_val = a.hash_val
    · rcases hc : compare e.key a.key with _ | _ | _
      · have hk : e.key < a.key := compare_lt_iff_lt.mp hc
        have hea : eLt e a := Or.inr ⟨h1, hk⟩
        rcases hrec : treeAdd e l with ⟨l', d⟩
        have hsnd := treeAdd_snd (e := e) sL
        rw [hrec, hLnone] at hsnd
        subst hsnd
        simp only [treeAdd, if_pos h1, hc, hrec, AVLTree.inorder_balance, AVLTree.inorder_node]
        have hil : l'.inorder = insL e l.inorder := by
          have := ihl sL hLnone hallL
          rw [hrec] at this
          exact this
        rw [hil, insL_append_left hea]
      · have hk : e.key = a.key := compare_eq_iff_eq.mp hc
        exact absurd ⟨h1.symm, hk.symm⟩
          (hall a (List.mem_append_right _ (List.mem_cons_self _ _)))
      · have hk : a.key < e.key := compare_gt_iff_gt.mp hc
        have hae : eLt a e := Or.inr ⟨h1.symm, hk⟩
        rcases hrec : treeAdd e r with ⟨r', d⟩
        have hsnd := treeAdd_snd (e := e) sR
        rw [hrec, hRnone] at hsnd
        subst hsnd
        simp only [treeAdd, if_pos h1, hc, hrec, AVLTree.inorder_balance, AVLTree.inorder_node]
        have hir : r'.inorder = insL e r.inorder := by
          have := ihr sR hRnone hallR
          rw [hrec] at this
          exact this
        have hnl : ∀ x ∈ l.inorder ++ [a], ¬ eLt e x := by
          intro x hx
          rcases List.mem_append.mp hx with hx | hx
          · exact eLt_asymm (eLt_trans (hLa x hx) hae)
          · rcases List.mem_singleton.mp hx with rfl
            exact eLt_asymm hae
        have := insL_append_right hnl r.inorder
        rw [List.append_assoc, List.singleton_append] at this
        rw [hir, this]
        simp
    · by_cases h2 : e.hash_val < a.hash_val
      · have hea : eLt e a := Or.inl h2
        rcases hrec : treeAdd e l with ⟨l', d⟩
        have hsnd := treeAdd_snd (e := e) sL
        rw [hrec, hLnone] at hsnd
        subst hsnd
        simp only [treeAdd, if_neg h1, if_pos h2, hrec, AVLTree.inorder_balance,
          AVLTree.inorder_node]
        have hil : l'.inorder = insL e l.inorder := by
          have := ihl sL hLnone hallL
          rw [hrec] at this
          exact this
        rw [hil, insL_append_left hea]
      · have h3 : a.hash_val < e.hash_val := by omega
        have hae : eLt a e := Or.inl h3
        rcases hrec : treeAdd e r with ⟨r', d⟩
        have hsnd := treeAdd_snd (e := e) sR
        rw [hrec, hRnone] at hsnd
        subst hsnd
        simp only [treeAdd, if_neg h1, if_neg h2, hrec, AVLTree.inorder_balance,
          AVLTree.inorder_node]
        have hir : r'.inorder = insL e r.inorder := by
          have := ihr sR hRnone hallR
          rw [hrec] at this
          exact this
        have hnl : ∀ x ∈ l.inorder ++ [a], ¬ eLt e x := by
          intro x hx
          rcases List.mem_append.mp hx with hx | hx
          · exact eLt_asymm (eLt_trans (hLa x hx) hae)
          · rcases List.mem_singleton.mp hx with rfl
            exact eLt_asymm hae
        have := insL_append_right hnl r.inorder
        rw [List.append_assoc, List.singleton_append] at this
        rw [hir, this]
        simp

theorem treeAdd_HtOk {e : HashEntry K V} {t : AVLTree (HashEntry K V)}
    (ht : AVLTree.HtOk t) : AVLTree.HtOk (treeAdd e t).1 := by
  induction t with
  | nil => exact AVLTree.HtOk_mk trivial trivial
  | node l a r h ihl ihr =>
    obtain ⟨hl, hr, hh⟩ := ht
    by_cases h1 : e.hash_val = a.hash_val
    · rcases hc : compare e.key a.key with _ | _ | _
      · rcases hrec : treeAdd e l with ⟨l', d⟩
        have hok := ihl hl
        rw [hrec] at hok
        cases d <;> simp only [treeAdd, if_pos h1, hc, hrec]
        · exact AVLTree.HtOk_balance hok hr
        · exact ⟨hl, hr, hh⟩
      · simp only [treeAdd, if_pos h1, hc]
        exact ⟨hl, hr, hh⟩
      · rcases hrec : treeAdd e r with ⟨r', d⟩
        have hok := ihr hr
        rw [hrec] at hok
        cases d <;> simp only [treeAdd, if_pos h1, hc, hrec]
        · exact AVLTree.HtOk_balance hl hok
        · exact ⟨hl, hr, hh⟩
    · by_cases h2 : e.hash_val < a.hash_val
      · rcases hrec : treeAdd e l with ⟨l', d⟩
        have hok := ihl hl
        rw [hrec] at hok
        cases d <;> simp only [treeAdd, if_neg h1, if_pos h2, hrec]
        · exact AVLTree.HtOk_balance hok hr
        · exact ⟨hl, hr, hh⟩
      · rcases hrec : treeAdd e r with ⟨r', d⟩
        have hok := ihr hr
        rw [hrec] at hok
        cases d <;> simp only [treeAdd, if_neg h1, if_neg h2, hrec]
        · exact AVLTree.HtOk_balance hl hok
        · exact ⟨hl, hr, hh⟩

section TreeEraseLemmas

variable {K V : Type} [LinearOrder K]

theorem a_no_match_of_key_lt {hv : Nat} {k : K} {a : HashEntry K V} (hk : k < a.key) :
    ¬ (a.hash_val = hv ∧ a.key = k) := by
  rintro ⟨-, h2⟩; rw [h2] at hk; exact lt_irrefl _ hk

theorem a_no_match_of_key_gt {hv : Nat} {k : K} {a : HashEntry K V} (hk : a.key < k) :
    ¬ (a.hash_val = hv ∧ a.key = k) := by
  rintro ⟨-, h2⟩; rw [h2] at hk; exact lt_irrefl _ hk

theorem a_no_match_of_hash_lt {hv : Nat} {k : K} {a : HashEntry K V} (hh : hv < a.hash_val) :
    ¬ (a.hash_val = hv ∧ a.key = k) := by
  rintro ⟨h1, -⟩; rw [h1] at hh; exact lt_irrefl _ hh

theorem a_no_match_of_hash_gt {hv : Nat} {k : K} {a : HashEntry K V} (hh : a.hash_val < hv) :
    ¬ (a.hash_val = hv ∧ a.key = k) := by
  rintro ⟨h1, -⟩; rw [h1] at hh; exact lt_irrefl _ hh

theorem delMin_eq_none_iff {t : AVLTree (HashEntry K V)} : delMin t = none ↔ t = .nil := by
  cases t with
  | nil => simp [delMin]
  | node l a r h =>
    rcases hrec : delMin l with _ | ⟨m, l'⟩ <;> simp [delMin, hrec]

theorem delMin_inorder {t : AVLTree (HashEntry K V)} {m : HashEntry K V}
    {t' : AVLTree (HashEntry K V)} (h : delMin t = some (m, t')) :
    t.inorder = m :: t'.inorder := by
  induction t generalizing m t' with
  | nil => simp [delMin] at h
  | node l a r hh ihl ihr =>
    rcases hrec : delMin l with _ | ⟨m0, l0⟩
    · have hl : l = .nil := delMin_eq_none_iff.mp hrec
      subst hl
      simp only [delMin, hrec, Option.some.injEq, Prod.mk.injEq] at h
      obtain ⟨rfl, rfl⟩ := h
      simp
    · simp only [delMin, hrec, Option.some.injEq, Prod.mk.injEq] at h
      obtain ⟨rfl, rfl⟩ := h
      rw [AVLTree.inorder_node, ihl hrec, AVLTree.inorder_balance]
      simp

theorem delMin_HtOk {t : AVLTree (HashEntry K V)} {m : HashEntry K V}
    {t' : AVLTree (HashEntry K V)} (ht : AVLTree.HtOk t) (h : delMin t = some (m, t')) :
    AVLTree.HtOk t' := by
  induction t generalizing m t' with
  | nil => simp [delMin] at h
  | node l a r hh ihl ihr =>
    obtain ⟨hl, hr, -⟩ := ht
    rcases hrec : delMin l with _ | ⟨m0, l0⟩
    · simp only [delMin, hrec, Option.some.injEq, Prod.mk.injEq] at h
      obtain ⟨rfl, rfl⟩ := h
      exact hr
    · simp only [delMin, hrec, Option.some.injEq, Prod.mk.injEq] at h
      obtain ⟨rfl, rfl⟩ := h
      exact AVLTree.HtOk_balance (ihl hl hrec) hr

theorem treeErase_inorder {hv : Nat} {k : K} {t : AVLTree (HashEntry K V)}
    (hs : List.Pairwise eLt t.inorder) :
    (treeErase hv k t).inorder = delL hv k t.inorder := by
  induction t with
  | nil => rfl
  | node l a r h ihl ihr =>
    obtain ⟨sL, sR, hLa, haR⟩ := sorted_node_parts hs
    rw [AVLTree.inorder_node]
    by_cases h1 : hv = a.hash_val
    · rcases hc : compare k a.key with _ | _ | _
      · have hk : k < a.key := compare_lt_iff_lt.mp hc
        have hARn : ∀ y ∈ a :: r.inorder, ¬ (y.hash_val = hv ∧ y.key = k) := by
          intro y hy
          rcases List.mem_cons.mp hy with rfl | hy
          · exact a_no_match_of_key_lt hk
          · exact no_match_right_of_lt (haR y hy) h1 hk
        rw [delL_append_right hARn]
        simp only [treeErase, if_pos h1, hc, AVLTree.inorder_balance]
        rw [ihl sL]
      · have hk : k = a.key := compare_eq_iff_eq.mp hc
        have hLn : ∀ x ∈ l.inorder, ¬ (x.hash_val = hv ∧ x.key = k) :=
          fun x hx => no_match_of_eLt_match (hLa x hx) ⟨h1.symm, hk.symm⟩
        rw [delL_append_left hLn, delL, if_pos ⟨h1.symm, hk.symm⟩]
        rcases hrec : delMin r with _ | ⟨m, r'⟩
        · have hr0 : r = .nil := delMin_eq_none_iff.mp hrec
          subst hr0
          simp only [treeErase, if_pos h1, hc, hrec, AVLTree.inorder_nil, List.append_nil]
        · simp only [treeErase, if_pos h1, hc, hrec, AVLTree.inorder_balance]
          rw [delMin_inorder hrec]
      · have hk : a.key < k := compare_gt_iff_gt.mp hc
        have hLn : ∀ x ∈ l.inorder ++ [a], ¬ (x.hash_val = hv ∧ x.key = k) := by
          intro x hx
          rcases List.mem_append.mp hx with hx | hx
          · exact no_match_left_of_gt (hLa x hx) h1 hk
          · rcases List.mem_singleton.mp hx with rfl
            exact a_no_match_of_key_gt hk
        have hsplit := delL_append_left hLn r.inorder
        rw [List.append_assoc, List.singleton_append] at hsplit
        rw [hsplit]
        simp only [treeErase, if_pos h1, hc, AVLTree.inorder_balance]
        rw [ihr sR]
        simp
    · by_cases h2 : hv < a.hash_val
      · have hARn : ∀ y ∈ a :: r.inorder, ¬ (y.hash_val = hv ∧ y.key = k) := by
          intro y hy
          rcases List.mem_cons.mp hy with rfl | hy
          · exact a_no_match_of_hash_lt h2
          · exact no_match_right_of_hash_lt (haR y hy) h2
        rw [delL_append_right hARn]
        simp only [treeErase, if_neg h1, if_pos h2, AVLTree.inorder_balance]
        rw [ihl sL]
      · have h3 : a.hash_val < hv := by omega
        have hLn : ∀ x ∈ l.inorder ++ [a], ¬ (x.hash_val = hv ∧ x.key = k) := by
          intro x hx
          rcases List.mem_append.mp hx with hx | hx
          · exact no_match_left_of_hash_gt (hLa x hx) h3
          · rcases List.mem_singleton.mp hx with rfl
            exact a_no_match_of_hash_gt h3
        have hsplit := delL_append_left hLn r.inorder
        rw [List.append_assoc, List.singleton_append] at hsplit
        rw [hsplit]
        simp only [treeErase, if_neg h1, if_neg h2, AVLTree.inorder_balance]
        rw [ihr sR]
        simp

theorem treeErase_HtOk {hv : Nat} {k : K} {t : AVLTree (HashEntry K V)}
    (ht : AVLTree.HtOk t) : AVLTree.HtOk (treeErase hv k t) := by
  induction t with
  | nil => trivial
  | node l a r h ihl ihr =>
    obtain ⟨hl, hr, hh⟩ := ht
    by_cases h1 : hv = a.hash_val
    · rcases hc : compare k a.key with _ | _ | _
      · simp only [treeErase, if_pos h1, hc]
        exact AVLTree.HtOk_balance (ihl hl) hr
      · rcases hrec : delMin r with _ | ⟨m, r'⟩
        · simp only [treeErase, if_pos h1, hc, hrec]
          exact hl
        · simp only [treeErase, if_pos h1, hc, hrec]
          exact AVLTree.HtOk_balance hl (delMin_HtOk hr hrec)
      · simp only [treeErase, if_pos h1, hc]
        exact AVLTree.HtOk_balance hl (ihr hr)
    · by_cases h2 : hv < a.hash_val
      · simp only [treeErase, if_neg h1, if_pos h2]
        exact AVLTree.HtOk_balance (ihl hl) hr
      · simp only [treeErase, if_neg h1, if_neg h2]
        exact AVLTree.HtOk_balance hl (ihr hr)

theorem treeAdd_sorted {e : HashEntry K V} {t : AVLTree (HashEntry K V)}
    (hs : List.Pairwise eLt t.inorder)
    (hnone : findL e.hash_val e.key t.inorder = none) :
    List.Pairwise eLt (treeAdd e t).1.inorder := by
  rw [treeAdd_fst_inorder hs hnone]
  exact insL_pairwise hs fun x hx => findL_eq_none.mp hnone x hx

theorem treeErase_sorted {hv : Nat} {k : K} {t : AVLTree (HashEntry K V)}
    (hs : List.Pairwise eLt t.inorder) :
    List.Pairwise eLt (treeErase hv k t).inorder := by
  rw [treeErase_inorder hs]
  exact List.Pairwise.sublist (delL_sublist hv k t.inorder) hs

end TreeEraseLemmas

/-- Hash table of AVL trees (struct HashTable of hash_table.rs).  The
index array becomes the bucket list, the circular live-bucket list
becomes the list of live bucket indices in list order, and the
index/init pointer distinction is the is_inline flag. -/
structure HashTable (K V : Type) where
  count : Nat
  index_size : Nat
  index_mask : Nat
  buckets : List (AVLTree (HashEntry K V))
  live : List Nat
  is_inline : Bool
  deriving DecidableEq

namespace HashTable

variable {K V : Type} [LinearOrder K]

/-- Bucket stored at an index (dereference of index.offset(i)). -/
def bucketAt (ht : HashTable K V) (i : Nat) : AVLTree (HashEntry K V) :=
  ht.buckets.getD i .nil

/-- Bucket index of a hash value: hash & index_mask (get_hash_index). -/
def idxOf (ht : HashTable K V) (hv : Nat) : Nat := hv &&& ht.index_mask

/-- HashTable::new followed by init(): count 0, the 8 inline buckets all
with null roots, the live list empty. -/
def initTable : HashTable K V :=
  { count := 0, index_size := 8, index_mask := 7,
    buckets := List.replicate 8 .nil, live := [], is_inline := true }

/-- HashTable::hash_find. -/
def hash_find (ht : HashTable K V) (hv : Nat) (k : K) : Option (HashEntry K V) :=
  treeFind hv k (ht.bucketAt (ht.idxOf hv))

/-- HashTable::hash_add: dispatch to bucket hash & mask; an empty bucket
receives the node as its root (children null, height 1) and is appended
to the live-list tail; otherwise hash_track finds either a duplicate,
returned with the table unchanged, or the link point where the node is
attached and rebalanced.  count increments only on an actual insertion. -/
def hash_add (ht : HashTable K V) (e : HashEntry K V) :
    HashTable K V × Option (HashEntry K V) :=
  let idx := ht.idxOf e.hash_val
  match ht.bucketAt idx with
  | .nil =>
    ({ ht with
        buckets := ht.buckets.set idx (.node .nil e .nil 1),
        live := ht.live ++ [idx],
        count := ht.count + 1 }, none)
  | t =>
    match treeAdd e t with
    | (_, some d) => (ht, some d)
    | (t', none) =>
      ({ ht with buckets := ht.buckets.set idx t', count := ht.count + 1 }, none)

/-- HashTable::hash_erase of the node carrying the given entry: when the
node is the bucket root and its height is 1 the root is set to null and
the bucket leaves the live list; otherwise erase_node removes it from
the tree.  count decrements. -/
def hash_erase (ht : HashTable K V) (e : HashEntry K V) : HashTable K V :=
  let idx := ht.idxOf e.hash_val
  match ht.bucketAt idx with
  | .nil => { ht with count := ht.count - 1 }
  | .node l a r h =>
    if a.hash_val = e.hash_val ∧ a.key = e.key ∧ h = 1 then
      { ht with
        buckets := ht.buckets.set idx .nil,
        live := ht.live.erase idx,
        count := ht.count - 1 }
    else
      { ht with
        buckets := ht.buckets.set idx (treeErase e.hash_val e.key (.node l a r h)),
        count := ht.count - 1 }

/-- HashTable::node_first: first node of the first live bucket. -/
def node_first (ht : HashTable K V) : Option (HashEntry K V) :=
  match ht.live with
  | [] => none
  | i :: _ => (ht.bucketAt i).inorder.head?

/-- HashTable::node_next: the in-order successor inside the node's own
bucket when there is one, else the first node of the bucket after it in
the live list (null when that was the last live bucket). -/
def node_next (ht : HashTable K V) (e : HashEntry K V) : Option (HashEntry K V) :=
  let idx := ht.idxOf e.hash_val
  match listSucc e.hash_val e.key (ht.bucketAt idx).inorder with
  | some x => some x
  | none =>
    match nextInList ht.live idx with
    | none => none
    | some j => (ht.bucketAt j).inorder.head?

/-- HashTable::pop_first_index: detach the first live bucket, clearing
its root and unlinking it, and return the root. -/
def pop_first_index (ht : HashTable K V) :
    Option (AVLTree (HashEntry K V)) × HashTable K V :=
  match ht.live with
  | [] => (none, ht)
  | i :: rest =>
    (some (ht.bucketAt i),
     { ht with buckets := ht.buckets.set i .nil, live := rest })

/-- Byte size of one HashIndex (an AVL root pointer plus two list
pointers) on the 64-bit target. -/
def hashIndexBytes : Nat := 24

/-- Doubling loop of hash_swap choosing index_size: starting from
test_size = sizeof(HashIndex) and index_size = 1, double both while the
doubled byte size still fits within nbytes.  (The 0 < test guard only
excludes the degenerate zero byte size, on which the source loop would
not advance.) -/
def csizeGo (nbytes test idx : Nat) : Nat :=
  if h : 0 < test ∧ 2 * test ≤ nbytes then csizeGo nbytes (2 * test) (2 * idx) else idx
termination_by nbytes - test
decreasing_by omega

/-- index_size chosen by hash_swap for an external array of nbytes bytes:
the largest power of two whose byte size fits, and at least 1. -/
def computeIndexSize (b nbytes : Nat) : Nat := csizeGo nbytes b 1

/-- Fresh table state hash_swap installs before re-inserting: count 0,
all roots null, live list re-initialised, the given index size. -/
def emptyTable (sz : Nat) (inl : Bool) : HashTable K V :=
  { count := 0, index_size := sz, index_mask := sz - 1,
    buckets := List.replicate sz .nil, live := [], is_inline := inl }

/-- Entries of the detached live-bucket list in the order hash_swap
re-inserts them: buckets in live-list order, post-order inside a bucket
(recursive_hash_add visits left, right, node). -/
def collectEntries (ht : HashTable K V) : List (HashEntry K V) :=
  joinL (ht.live.map fun i => (ht.bucketAt i).postorder)

/-- Re-insert a list of nodes with hash_add, dropping duplicate results
(recursive_hash_add ignores the return value). -/
def reinsertAll (ht : HashTable K V) (es : List (HashEntry K V)) : HashTable K V :=
  es.foldl (fun h e => (hash_add h e).1) ht

/-- Argument shapes of hash_swap: null (revert to the inline init
array), the current index pointer, or a freshly allocated external array
of nbytes bytes (neither null, nor the current index, nor init). -/
inductive SwapArg where
  | toInit : SwapArg
  | same : SwapArg
  | fresh (nbytes : Nat) : SwapArg

/-- HashTable::hash_swap.  The returned Bool stands for the returned
pointer: true for a non-null return (the passed-back previous index),
false for a null return (the previous index was the inline array, or
nothing was done because the current index is already the inline one). -/
def hash_swap (ht : HashTable K V) (arg : SwapArg) : HashTable K V × Bool :=
  match arg with
  | .same => (ht, true)
  | .toInit =>
    if ht.is_inline then (ht, false)
    else (reinsertAll (emptyTable 8 true) (collectEntries ht), true)
  | .fresh nbytes =>
    (reinsertAll (emptyTable (computeIndexSize hashIndexBytes nbytes) false)
      (collectEntries ht), !ht.is_inline)

/-- Doubling loop of rehash: double need until it reaches the limit.
(The 0 < need guard only excludes the degenerate zero index size, on
which the source loop would not advance.) -/
def growSize (need limit : Nat) : Nat :=
  if h : 0 < need ∧ need < limit then growSize (2 * need) limit else need
termination_by limit - need
decreasing_by omega

/-- HashTable::rehash: grow-only; when index_size < capacity * 6 / 4,
double index_size until at least the limit, allocate that many buckets
and hash_swap into them (the old external array is then freed). -/
def rehash (ht : HashTable K V) (capacity : Nat) : HashTable K V :=
  let limit := capacity * 6 / 4
  if ht.index_size < limit then
    (hash_swap ht (.fresh (growSize ht.index_size limit * hashIndexBytes))).1
  else ht

/-- Destruction loop shared by HashMap::clear, HashMap::drop and the
walk phase of shrink_to_fit: pop_first_index until null and
recurse_destroy each detached root (post-order; every visit frees the
entry slot, reads the (K, V) pair out of the kv slot and decrements
count).  Returns the final table and the pairs read out, in order. -/
def clearRec (ht : HashTable K V) : HashTable K V × List (HashEntry K V) :=
  match hl : ht.live with
  | [] => (ht, [])
  | i :: rest =>
    let t := ht.bucketAt i
    let ht' : HashTable K V :=
      { ht with
        buckets := ht.buckets.set i .nil,
        live := rest,
        count := ht.count - t.postorder.length }
    let res := clearRec ht'
    (res.1, t.postorder ++ res.2)
termination_by ht.live.length
decreasing_by simp [hl]

/-- Entries of the table in iteration order: live buckets in list order,
in-order inside each bucket. -/
def tableList (ht : HashTable K V) : List (HashEntry K V) :=
  joinL (ht.live.map fun i => (ht.bucketAt i).inorder)

/-- Iterator loop of Iter::next: yield the entry and advance with
node_next while the remaining length is positive and the entry pointer
is non-null. -/
def iterFrom (ht : HashTable K V) : Nat → Option (HashEntry K V) → List (K × V)
  | 0, _ => []
  | _ + 1, none => []
  | n + 1, some e => (e.key, e.value) :: iterFrom ht n (ht.node_next e)

/-- Full run of the borrowing iterator iter(): starts at node_first with
len() as the remaining count. -/
def iterList (ht : HashTable K V) : List (K × V) :=
  iterFrom ht ht.count ht.node_first

/-- Full drain of the moving iterator IntoIter: each next() computes the
successor first, then erases the yielded entry from the map and returns
its pair moved out of the kv slot; the drop handler drains the remainder
the same way.  Returns all pairs produced and the final map state. -/
def intoAll (ht : HashTable K V) :
    Nat → Option (HashEntry K V) → List (K × V) × HashTable K V
  | 0, _ => ([], ht)
  | _ + 1, none => ([], ht)
  | n + 1, some e =>
    let res := intoAll (ht.hash_erase e) n (ht.node_next e)
    ((e.key, e.value) :: res.1, res.2)

end HashTable

section MapLevel

variable {K V : Type} [LinearOrder K] (hashf : K → Nat)

/-- Modelled from the spec: calc_limit, declared in hash_table.rs outside
the provided sources, is count x 6 / 4. -/
def calc_limit (count : Nat) : Nat := count * 6 / 4

/-- Modelled from the spec: default_rehash, run after each insert,
consults calc_limit(count) and grows when index_size is below it; this
is rehash at the current count. -/
def default_rehash (ht : HashTable K V) : HashTable K V := ht.rehash ht.count

/-- Modelled from the spec: capacity(), the number of bucket slots of
the table (index_size), the unit in which the spec states its capacity
laws. -/
def capacity (ht : HashTable K V) : Nat := ht.index_size

/-- HashMap::with_capacity / with_capacity_and_hasher: a fresh table
rehashed to the requested capacity. -/
def withCapacity (c : Nat) : HashTable K V := HashTable.initTable.rehash c

/-- HashMap::new, which is with_capacity 0. -/
def mapNew : HashTable K V := withCapacity 0

/-- HashMap::insert: hash the key, allocate the pair and the entry,
hash_table_update (hash_add), then default_rehash; when a duplicate came
back, the old pair is read out of the old entry's kv slot, that slot is
freed, and the pair returned.  (The old entry itself stays linked in the
tree: hash_replace is never called by hash_table_update.) -/
def mapInsert (ht : HashTable K V) (k : K) (v : V) :
    HashTable K V × Option (K × V) :=
  match HashTable.hash_add ht ⟨hashf k, k, v⟩ with
  | (ht', none) => (default_rehash ht', none)
  | (_, some old) => (default_rehash ht, some (old.key, old.value))

/-- HashMap::get composed with find: hash the borrowed key and walk the
bucket tree; the found entry's value is returned by reference. -/
def mapGet (ht : HashTable K V) (q : K) : Option V :=
  (ht.hash_find (hashf q) q).map fun e => e.value

/-- HashMap::contains_key. -/
def mapContains (ht : HashTable K V) (q : K) : Bool :=
  (ht.hash_find (hashf q) q).isSome

/-- HashMap::remove: find, hash_erase, free the entry slot, move the
(K, V) pair out of its kv slot and free the slot. -/
def mapRemove (ht : HashTable K V) (q : K) : HashTable K V × Option (K × V) :=
  match ht.hash_find (hashf q) q with
  | none => (ht, none)
  | some e => (ht.hash_erase e, some (e.key, e.value))

/-- Index for HashMap: get(q).expect("no entry found for key"); the
panic of the missing key becomes the error value carrying the panic
message. -/
def mapIndex (ht : HashTable K V) (q : K) : Except String V :=
  match mapGet hashf ht q with
  | some v => Except.ok v
  | none => Except.error "no entry found for key"

/-- HashMap::reserve, which is rehash(capacity). -/
def mapReserve (ht : HashTable K V) (c : Nat) : HashTable K V := ht.rehash c

/-- HashMap::clear (also run by drop): the destruction loop, keeping
only the final state. -/
def mapClear (ht : HashTable K V) : HashTable K V := (HashTable.clearRec ht).1

/-- HashMap::len. -/
def mapLen (ht : HashTable K V) : Nat := ht.count

/-- Halving loop of shrink_to_fit in fuel-passing style: while
new_index_size / 2 >= limit, halve new_index_size; none when the given
number of iterations is exhausted before the condition fails. -/
def shrinkLoop : Nat → Nat → Nat → Option Nat
  | 0, _, _ => none
  | fuel + 1, limit, n => if limit ≤ n / 2 then shrinkLoop fuel limit (n / 2) else some n

/-- HashMap::shrink_to_fit with explicit fuel for its halving loop:
compute calc_limit(len) and halve index_size while possible; if the
result is not smaller than the current index_size, return unchanged;
otherwise pop and destroy every bucket while collecting the pairs into
fresh kv slots (clearRec order), then re-insert every pair with a
recomputed hash into a fresh table rehashed to the old len, and install
the new table and slabs. -/
def shrinkToFitFuel (fuel : Nat) (ht : HashTable K V) : Option (HashTable K V) :=
  match shrinkLoop fuel (calc_limit ht.count) ht.index_size with
  | none => none
  | some nsz =>
    if ht.index_size ≤ nsz then some ht
    else
      some (((HashTable.clearRec ht).2).foldl
        (fun h e => (HashTable.hash_add h ⟨hashf e.key, e.key, e.value⟩).1)
        (HashTable.initTable.rehash ht.count))

end MapLevel

namespace HashTable

variable {K V : Type} [LinearOrder K]

/-- Structural invariant of every table state the map API produces:
power-of-two index size with matching mask and bucket count, the live
list holding exactly the buckets with a non-null root, each once, every
bucket tree sorted by (hash_val, key) with consistent heights, every
entry sitting in the bucket its hash dispatches to, and count equal to
the number of stored entries. -/
structure WF (ht : HashTable K V) : Prop where
  pow : ∃ j, ht.index_size = 2 ^ j
  mask_eq : ht.index_mask = ht.index_size - 1
  blen : ht.buckets.length = ht.index_size
  live_lt : ∀ i ∈ ht.live, i < ht.index_size
  live_nodup : ht.live.Nodup
  live_iff : ∀ i, ht.bucketAt i ≠ .nil ↔ i ∈ ht.live
  sorted : ∀ i, List.Pairwise eLt (ht.bucketAt i).inorder
  disp : ∀ i, ∀ e ∈ (ht.bucketAt i).inorder, e.hash_val &&& ht.index_mask = i
  hts : ∀ i, AVLTree.HtOk (ht.bucketAt i)
  cnt : ht.count = (tableList ht).length

theorem bucketAt_emptyTable (sz : Nat) (inl : Bool) (i : Nat) :
    (emptyTable (K := K) (V := V) sz inl).bucketAt i = .nil := by
  unfold bucketAt emptyTable
  rcases Nat.lt_or_ge i sz with h | h
  · simp [List.getD, List.getElem?_replicate, h]
  · simp [List.getD, List.getElem?_replicate, Nat.not_lt.mpr h]

theorem tableList_emptyTable (sz : Nat) (inl : Bool) :
    tableList (emptyTable (K := K) (V := V) sz inl) = [] := rfl

theorem WF_emptyTable {sz : Nat} (hsz : ∃ j, sz = 2 ^ j) (inl : Bool) :
    WF (emptyTable (K := K) (V := V) sz inl) where
  pow := hsz
  mask_eq := rfl
  blen := List.length_replicate _ _
  live_lt := by intro i h; simp [emptyTable] at h
  live_nodup := List.nodup_nil
  live_iff := by
    intro i
    rw [bucketAt_emptyTable]
    simp [emptyTable]
  sorted := by intro i; rw [bucketAt_emptyTable]; exact List.Pairwise.nil
  disp := by intro i e he; rw [bucketAt_emptyTable] at he; simp [AVLTree.inorder] at he
  hts := by intro i; rw [bucketAt_emptyTable]; trivial
  cnt := rfl

theorem initTable_eq_emptyTable :
    (initTable : HashTable K V) = emptyTable 8 true := rfl

theorem WF_initTable : WF (initTable : HashTable K V) := by
  rw [initTable_eq_emptyTable]
  exact WF_emptyTable ⟨3, rfl⟩ true

theorem idxOf_lt {ht : HashTable K V} (hwf : WF ht) (hv : Nat) :
    ht.idxOf hv < ht.index_size := by
  obtain ⟨j, hj⟩ := hwf.pow
  rw [idxOf, hwf.mask_eq, hj]
  rw [Nat.and_pow_two_sub_one_eq_mod]
  exact Nat.mod_lt _ (Nat.pos_pow_of_pos j (by omega))

theorem mem_joinL {α : Type u} {ls : List (List α)} {x : α} :
    x ∈ joinL ls ↔ ∃ l ∈ ls, x ∈ l := by
  induction ls with
  | nil => simp
  | cons l ls ih => simp [ih]

theorem mem_tableList {ht : HashTable K V} {e : HashEntry K V} :
    e ∈ tableList ht ↔ ∃ i ∈ ht.live, e ∈ (ht.bucketAt i).inorder := by
  unfold tableList
  rw [mem_joinL]
  constructor
  · rintro ⟨l, hl, he⟩
    obtain ⟨i, hi, rfl⟩ := List.mem_map.mp hl
    exact ⟨i, hi, he⟩
  · rintro ⟨i, hi, he⟩
    exact ⟨_, List.mem_map.mpr ⟨i, hi, rfl⟩, he⟩

theorem bucket_idx_of_mem {ht : HashTable K V} (hwf : WF ht) {e : HashEntry K V} {i : Nat}
    (he : e ∈ (ht.bucketAt i).inorder) : ht.idxOf e.hash_val = i :=
  hwf.disp i e he

theorem mem_bucket_of_mem_tableList {ht : HashTable K V} (hwf : WF ht) {e : HashEntry K V}
    (he : e ∈ tableList ht) :
    e ∈ (ht.bucketAt (ht.idxOf e.hash_val)).inorder ∧ ht.idxOf e.hash_val ∈ ht.live := by
  obtain ⟨i, hi, hbi⟩ := mem_tableList.mp he
  have hix := bucket_idx_of_mem hwf hbi
  rw [hix]
  exact ⟨hbi, hi⟩

theorem ekey_eq_iff {a b : HashEntry K V} :
    ekey a = ekey b ↔ a.hash_val = b.hash_val ∧ a.key = b.key := by
  unfold ekey
  constructor
  · intro h
    exact ⟨congrArg Prod.fst h, congrArg Prod.snd h⟩
  · rintro ⟨h1, h2⟩
    rw [h1, h2]

theorem segment_nodupkeys {ht : HashTable K V} (hwf : WF ht) (i : Nat) :
    (((ht.bucketAt i).inorder).map ekey).Nodup := by
  unfold List.Nodup
  rw [List.pairwise_map]
  exact (hwf.sorted i).imp fun h hc => eLt_ne h (ekey_eq_iff.mp hc)

theorem tableList_nodupkeys {ht : HashTable K V} (hwf : WF ht) :
    ((tableList ht).map ekey).Nodup := by
  have main : ∀ ls : List Nat, ls.Nodup →
      ((joinL (ls.map fun i => (ht.bucketAt i).inorder)).map ekey).Nodup := by
    intro ls hnd
    induction ls with
    | nil => simp
    | cons i ls ih =>
      obtain ⟨hni, hnd'⟩ := List.pairwise_cons.mp hnd
      simp only [List.map_cons, joinL_cons, List.map_append]
      rw [List.nodup_append]
      refine ⟨segment_nodupkeys hwf i, ih hnd', ?_⟩
      intro a ha hb
      obtain ⟨x, hx, rfl⟩ := List.mem_map.mp ha
      obtain ⟨y, hy, hxy⟩ := List.mem_map.mp hb
      obtain ⟨seg, hseg, hyseg⟩ := mem_joinL.mp hy
      obtain ⟨j, hj, rfl⟩ := List.mem_map.mp hseg
      have hij : i = j := by
        have h1 := hwf.disp i x hx
        have h2 := hwf.disp j y hyseg
        rw [ekey_eq_iff] at hxy
        rw [← h1, ← h2, hxy.1]
      exact hni j hj hij
  exact main ht.live hwf.live_nodup

theorem tableList_entry_unique {ht : HashTable K V} (hwf : WF ht) {x y : HashEntry K V}
    (hx : x ∈ tableList ht) (hy : y ∈ tableList ht) (hxy : ekey x = ekey y) : x = y :=
  List.inj_on_of_nodup_map (tableList_nodupkeys hwf) hx hy hxy

theorem tableList_nodup {ht : HashTable K V} (hwf : WF ht) : (tableList ht).Nodup :=
  List.Nodup.of_map ekey (tableList_nodupkeys hwf)

end HashTable

theorem getD_set_ne {α : Type u} {l : List α} {i j : Nat} (h : j ≠ i) (a d : α) :
    (l.set i a).getD j d = l.getD j d := by
  unfold List.getD
  rw [List.get?_eq_getElem?, List.get?_eq_getElem?,
    List.getElem?_set_ne (fun hc => h hc.symm)]

theorem getD_set_self {α : Type u} {l : List α} {i : Nat} (hi : i < l.length) (a d : α) :
    (l.set i a).getD i d = a := by
  unfold List.getD
  rw [List.get?_eq_getElem?, List.getElem?_set_self hi]
  rfl

theorem joinL_map_congr {α : Type u} {f g : Nat → List α} {ls : List Nat}
    (h : ∀ i ∈ ls, f i = g i) : joinL (ls.map f) = joinL (ls.map g) := by
  induction ls with
  | nil => rfl
  | cons i ls ih =>
    simp only [List.map_cons, joinL_cons]
    rw [h i (List.mem_cons_self _ _), ih fun j hj => h j (List.mem_cons_of_mem _ hj)]

theorem joinL_update {α : Type u} {f g : Nat → List α} {ls : List Nat} {i : Nat}
    (hnd : ls.Nodup) (hi : i ∈ ls) (hfg : ∀ j ∈ ls, j ≠ i → f j = g j) :
    ∃ A B, joinL (ls.map f) = A ++ (f i ++ B) ∧ joinL (ls.map g) = A ++ (g i ++ B) := by
  induction ls with
  | nil => simp at hi
  | cons x ls ih =>
    obtain ⟨hx, hnd'⟩ := List.pairwise_cons.mp hnd
    rcases List.mem_cons.mp hi with rfl | hi'
    · refine ⟨[], joinL (ls.map f), by simp, ?_⟩
      have : joinL (ls.map f) = joinL (ls.map g) :=
        joinL_map_congr fun j hj => hfg j (List.mem_cons_of_mem _ hj)
          (fun hji => (hx j hj hji.symm).elim)
      simp [← this]
    · have hxi : x ≠ i := fun hc => hx i hi' hc
      obtain ⟨A, B, h1, h2⟩ := ih hnd' hi'
        (fun j hj hji => hfg j (List.mem_cons_of_mem _ hj) hji)
      refine ⟨f x ++ A, B, ?_, ?_⟩
      · simp only [List.map_cons, joinL_cons, h1, List.append_assoc]
      · rw [hfg x (List.mem_cons_self _ _) hxi] at *
        simp only [List.map_cons, joinL_cons, h2, List.append_assoc]

namespace HashTable

variable {K V : Type} [LinearOrder K]

theorem insL_ne_nil {e : HashEntry K V} {l : List (HashEntry K V)} : insL e l ≠ [] := by
  intro hc
  have := (insL_perm e l).length_eq
  rw [hc] at this
  simp at this

theorem hash_find_some_iff {ht : HashTable K V} (hwf : WF ht) {hv : Nat} {k : K}
    {e : HashEntry K V} :
    ht.hash_find hv k = some e ↔ e ∈ tableList ht ∧ e.hash_val = hv ∧ e.key = k := by
  unfold hash_find
  rw [treeFind_eq_findL (hwf.sorted (ht.idxOf hv))]
  constructor
  · intro h
    obtain ⟨hmem, hh, hk⟩ := findL_some_mem h
    refine ⟨mem_tableList.mpr ⟨ht.idxOf hv, ?_, hmem⟩, hh, hk⟩
    apply (hwf.live_iff _).mp
    intro hc
    rw [hc] at hmem
    simp at hmem
  · rintro ⟨hmem, h1, h2⟩
    obtain ⟨hb, hlive⟩ := mem_bucket_of_mem_tableList hwf hmem
    rw [h1] at hb hlive
    have hsome := findL_isSome_of_mem hb ⟨h1, h2⟩
    obtain ⟨d, hd⟩ := Option.isSome_iff_exists.mp hsome
    obtain ⟨hdm, hdh, hdk⟩ := findL_some_mem hd
    have hde : d = e := by
      apply tableList_entry_unique hwf (mem_tableList.mpr ⟨_, hlive, hdm⟩) hmem
      rw [ekey_eq_iff]
      exact ⟨hdh.trans h1.symm, hdk.trans h2.symm⟩
    rw [hd, hde]

theorem hash_find_none_iff {ht : HashTable K V} (hwf : WF ht) {hv : Nat} {k : K} :
    ht.hash_find hv k = none ↔
      ∀ e ∈ tableList ht, ¬ (e.hash_val = hv ∧ e.key = k) := by
  constructor
  · intro h e he hc
    have := (hash_find_some_iff hwf).mpr ⟨he, hc.1, hc.2⟩
    rw [h] at this
    cases this
  · intro hall
    rcases hf : ht.hash_find hv k with _ | e
    · rfl
    · obtain ⟨hm, hh, hk⟩ := (hash_find_some_iff hwf).mp hf
      exact absurd ⟨hh, hk⟩ (hall e hm)

theorem find_eq_findL {ht : HashTable K V} (hwf : WF ht) (hv : Nat) (k : K) :
    ht.hash_find hv k = findL hv k (ht.bucketAt (ht.idxOf hv)).inorder :=
  treeFind_eq_findL (hwf.sorted (ht.idxOf hv))

end HashTable

namespace HashTable

variable {K V : Type} [LinearOrder K]

theorem bucketAt_mk {c isz msk : Nat} {bk : List (AVLTree (HashEntry K V))}
    {lv : List Nat} {inl : Bool} (j : Nat) :
    (HashTable.mk c isz msk bk lv inl).bucketAt j = bk.getD j .nil := rfl

theorem tableList_mk {c isz msk : Nat} {bk : List (AVLTree (HashEntry K V))}
    {lv : List Nat} {inl : Bool} :
    tableList (HashTable.mk c isz msk bk lv inl)
      = joinL (lv.map fun i => (bk.getD i .nil).inorder) := rfl

theorem hash_add_dup {ht : HashTable K V} (hwf : WF ht) {e d : HashEntry K V}
    (hd : ht.hash_find e.hash_val e.key = some d) : ht.hash_add e = (ht, some d) := by
  have hfind := hd
  rw [find_eq_findL hwf] at hfind
  rcases hb : ht.bucketAt (ht.idxOf e.hash_val) with _ | ⟨l0, a0, r0, h0⟩
  · rw [hb] at hfind
    simp [findL] at hfind
  · have hsorted := hwf.sorted (ht.idxOf e.hash_val)
    rw [hb] at hsorted hfind
    rcases hta : treeAdd e (AVLTree.node l0 a0 r0 h0) with ⟨t', d'⟩
    have hsnd := treeAdd_snd (e := e) hsorted
    rw [hta, hfind] at hsnd
    simp only at hsnd
    subst hsnd
    simp only [hash_add, hb, hta]

theorem hash_add_absent {ht : HashTable K V} (hwf : WF ht) {e : HashEntry K V}
    (habs : ht.hash_find e.hash_val e.key = none) :
    WF (ht.hash_add e).1 ∧ (ht.hash_add e).2 = none ∧
      (ht.hash_add e).1.count = ht.count + 1 ∧
      List.Perm (tableList (ht.hash_add e).1) (e :: tableList ht) ∧
      (ht.hash_add e).1.index_size = ht.index_size ∧
      (ht.hash_add e).1.index_mask = ht.index_mask ∧
      (ht.hash_add e).1.is_inline = ht.is_inline ∧
      (ht.bucketAt (ht.idxOf e.hash_val) = .nil →
        (ht.hash_add e).1.live = ht.live ++ [ht.idxOf e.hash_val]) ∧
      (ht.bucketAt (ht.idxOf e.hash_val) ≠ .nil → (ht.hash_add e).1.live = ht.live) ∧
      (∀ j, j ≠ ht.idxOf e.hash_val → (ht.hash_add e).1.bucketAt j = ht.bucketAt j) := by
  have hfind : findL e.hash_val e.key (ht.bucketAt (ht.idxOf e.hash_val)).inorder = none := by
    rw [← find_eq_findL hwf]
    exact habs
  have hlt : ht.idxOf e.hash_val < ht.index_size := idxOf_lt hwf _
  have hltb : ht.idxOf e.hash_val < ht.buckets.length := by rw [hwf.blen]; exact hlt
  rcases hb : ht.bucketAt (ht.idxOf e.hash_val) with _ | ⟨l0, a0, r0, h0⟩
  · -- empty bucket: new root, bucket appended to the live list
    have hnl : ht.idxOf e.hash_val ∉ ht.live := by
      intro hmem
      exact absurd hb ((hwf.live_iff _).mpr hmem)
    have hbself : (ht.buckets.set (ht.idxOf e.hash_val)
        (AVLTree.node .nil e .nil 1)).getD (ht.idxOf e.hash_val) AVLTree.nil
        = AVLTree.node .nil e .nil 1 := getD_set_self hltb _ _
    have hbne : ∀ j, j ≠ ht.idxOf e.hash_val →
        (ht.buckets.set (ht.idxOf e.hash_val) (AVLTree.node .nil e .nil 1)).getD j
          AVLTree.nil = ht.buckets.getD j AVLTree.nil :=
      fun j hj => getD_set_ne hj _ _
    have hadd : ht.hash_add e = ({ ht with
        buckets := ht.buckets.set (ht.idxOf e.hash_val) (.node .nil e .nil 1),
        live := ht.live ++ [ht.idxOf e.hash_val],
        count := ht.count + 1 }, none) := by
      simp only [hash_add, hb]
    rw [hadd]
    have htl : tableList ({ ht with
        buckets := ht.buckets.set (ht.idxOf e.hash_val) (.node .nil e .nil 1),
        live := ht.live ++ [ht.idxOf e.hash_val],
        count := ht.count + 1 } : HashTable K V) = tableList ht ++ [e] := by
      rw [tableList_mk, List.map_append, joinL_append]
      have hcong := @joinL_map_congr _
        (fun i => ((ht.buckets.set (ht.idxOf e.hash_val)
          (AVLTree.node .nil e .nil 1)).getD i AVLTree.nil).inorder)
        (fun i => (ht.buckets.getD i AVLTree.nil).inorder)
        ht.live
        (fun i hi => congrArg AVLTree.inorder (hbne i fun hc => hnl (hc ▸ hi)))
      rw [hcong]
      simp only [List.map_cons, List.map_nil, joinL_cons, joinL_nil, hbself]
      rfl
    refine ⟨?_, rfl, rfl, ?_, rfl, rfl, rfl, fun _ => rfl, fun hc => absurd rfl hc, ?_⟩
    · constructor
      · exact hwf.pow
      · exact hwf.mask_eq
      · simp [hwf.blen]
      · intro i hi
        rcases List.mem_append.mp hi with hi | hi
        · exact hwf.live_lt i hi
        · rw [List.mem_singleton.mp hi]
          exact hlt
      · rw [List.nodup_append]
        refine ⟨hwf.live_nodup, List.nodup_singleton _, ?_⟩
        intro a ha hb2
        rw [List.mem_singleton.mp hb2] at ha
        exact hnl ha
      · intro i
        rw [bucketAt_mk]
        by_cases hi : i = ht.idxOf e.hash_val
        · subst hi
          rw [hbself]
          simp
        · rw [hbne i hi]
          rw [List.mem_append, List.mem_singleton]
          constructor
          · intro h
            exact Or.inl ((hwf.live_iff i).mp h)
          · rintro (h | h)
            · exact (hwf.live_iff i).mpr h
            · exact absurd h hi
      · intro i
        rw [bucketAt_mk]
        by_cases hi : i = ht.idxOf e.hash_val
        · subst hi
          rw [hbself]
          simp [AVLTree.inorder]
        · rw [hbne i hi]
          exact hwf.sorted i
      · intro i x hx
        rw [bucketAt_mk] at hx
        by_cases hi : i = ht.idxOf e.hash_val
        · subst hi
          rw [hbself] at hx
          simp [AVLTree.inorder] at hx
          subst hx
          rfl
        · rw [hbne i hi] at hx
          exact hwf.disp i x hx
      · intro i
        rw [bucketAt_mk]
        by_cases hi : i = ht.idxOf e.hash_val
        · subst hi
          rw [hbself]
          exact ⟨trivial, trivial, rfl⟩
        · rw [hbne i hi]
          exact hwf.hts i
      · rw [htl]
        simp [hwf.cnt]
    · rw [htl]
      exact List.perm_append_singleton e _
    · intro j hj
      rw [bucketAt_mk]
      unfold bucketAt
      exact hbne j hj
  · -- non-empty bucket: tree insertion into the existing root
    have hmem : ht.idxOf e.hash_val ∈ ht.live := by
      apply (hwf.live_iff _).mp
      rw [hb]
      simp
    have hsorted := hwf.sorted (ht.idxOf e.hash_val)
    rcases hta : treeAdd e (ht.bucketAt (ht.idxOf e.hash_val)) with ⟨t', d'⟩
    have hsnd := treeAdd_snd (e := e) hsorted
    rw [hta, hfind] at hsnd
    simp only at hsnd
    subst hsnd
    have hfst : (treeAdd e (ht.bucketAt (ht.idxOf e.hash_val))).1 = t' := by rw [hta]
    have hio : t'.inorder = insL e (ht.bucketAt (ht.idxOf e.hash_val)).inorder := by
      rw [← hfst]
      exact treeAdd_fst_inorder hsorted hfind
    have hso : List.Pairwise eLt t'.inorder := by
      rw [← hfst]
      exact treeAdd_sorted hsorted hfind
    have hht : AVLTree.HtOk t' := by
      rw [← hfst]
      exact treeAdd_HtOk (hwf.hts _)
    have htne : t' ≠ .nil := by
      intro hc
      rw [hc] at hio
      exact insL_ne_nil hio.symm
    have hbself : (ht.buckets.set (ht.idxOf e.hash_val) t').getD
        (ht.idxOf e.hash_val) AVLTree.nil = t' := getD_set_self hltb _ _
    have hbne : ∀ j, j ≠ ht.idxOf e.hash_val →
        (ht.buckets.set (ht.idxOf e.hash_val) t').getD j AVLTree.nil
          = ht.buckets.getD j AVLTree.nil := fun j hj => getD_set_ne hj _ _
    have hadd : ht.hash_add e = ({ ht with
        buckets := ht.buckets.set (ht.idxOf e.hash_val) t',
        count := ht.count + 1 }, none) := by
      rw [hb] at hta
      simp only [hash_add, hb, hta]
    rw [hadd]
    obtain ⟨A, B, hAB1, hAB2⟩ := joinL_update (α := HashEntry K V)
      (f := fun j => ((ht.buckets.set (ht.idxOf e.hash_val) t').getD j AVLTree.nil).inorder)
      (g := fun j => (ht.bucketAt j).inorder)
      hwf.live_nodup hmem
      (fun j _ hj => congrArg AVLTree.inorder (hbne j hj))
    have htl1 : tableList ({ ht with
        buckets := ht.buckets.set (ht.idxOf e.hash_val) t',
        count := ht.count + 1 } : HashTable K V)
        = A ++ (insL e (ht.bucketAt (ht.idxOf e.hash_val)).inorder ++ B) := by
      rw [tableList_mk, hAB1, hbself, hio]
    have htl0 : tableList ht = A ++ ((ht.bucketAt (ht.idxOf e.hash_val)).inorder ++ B) := by
      rw [tableList, hAB2]
    have hperm : List.Perm (tableList ({ ht with
        buckets := ht.buckets.set (ht.idxOf e.hash_val) t',
        count := ht.count + 1 } : HashTable K V)) (e :: tableList ht) := by
      rw [htl1, htl0]
      have p2 := (List.Perm.refl A).append
        ((insL_perm e (ht.bucketAt (ht.idxOf e.hash_val)).inorder).append (List.Perm.refl B))
      refine p2.trans ?_
      have heq : A ++ ((e :: (ht.bucketAt (ht.idxOf e.hash_val)).inorder) ++ B)
          = A ++ e :: ((ht.bucketAt (ht.idxOf e.hash_val)).inorder ++ B) := by simp
      rw [heq]
      exact List.perm_middle
    refine ⟨?_, rfl, rfl, hperm, rfl, rfl, rfl,
      fun hc => AVLTree.noConfusion hc, fun _ => rfl, ?_⟩
    · constructor
      · exact hwf.pow
      · exact hwf.mask_eq
      · simp [hwf.blen]
      · exact hwf.live_lt
      · exact hwf.live_nodup
      · intro i
        rw [bucketAt_mk]
        by_cases hi : i = ht.idxOf e.hash_val
        · subst hi
          rw [hbself]
          constructor
          · intro _
            exact hmem
          · intro _
            exact htne
        · rw [hbne i hi]
          exact hwf.live_iff i
      · intro i
        rw [bucketAt_mk]
        by_cases hi : i = ht.idxOf e.hash_val
        · subst hi
          rw [hbself]
          exact hso
        · rw [hbne i hi]
          exact hwf.sorted i
      · intro i x hx
        rw [bucketAt_mk] at hx
        by_cases hi : i = ht.idxOf e.hash_val
        · subst hi
          rw [hbself] at hx
          rw [hio] at hx
          rcases mem_insL.mp hx with rfl | hx
          · rfl
          · exact hwf.disp _ x hx
        · rw [hbne i hi] at hx
          exact hwf.disp i x hx
      · intro i
        rw [bucketAt_mk]
        by_cases hi : i = ht.idxOf e.hash_val
        · subst hi
          rw [hbself]
          exact hht
        · rw [hbne i hi]
          exact hwf.hts i
      · have := hperm.length_eq
        simp only [List.length_cons] at this
        rw [this, hwf.cnt]
    · intro j hj
      rw [bucketAt_mk]
      unfold bucketAt
      exact hbne j hj

end HashTable

theorem split_unique {α : Type u} {a : α} {p1 s1 p2 s2 : List α}
    (h : p1 ++ a :: s1 = p2 ++ a :: s2) (h1 : a ∉ p1) (h2 : a ∉ p2) :
    p1 = p2 ∧ s1 = s2 := by
  induction p1 generalizing p2 with
  | nil =>
    cases p2 with
    | nil => simpa using h
    | cons b p2 =>
      simp only [List.nil_append, List.cons_append, List.cons.injEq] at h
      obtain ⟨rfl, h⟩ := h
      exact absurd (List.mem_cons_self _ _) h2
  | cons b p1 ih =>
    cases p2 with
    | nil =>
      simp only [List.cons_append, List.nil_append, List.cons.injEq] at h
      obtain ⟨rfl, h⟩ := h
      exact absurd (List.mem_cons_self _ _) h1
    | cons c p2 =>
      simp only [List.cons_append, List.cons.injEq] at h
      obtain ⟨rfl, h⟩ := h
      have hrec := ih h (fun hm => h1 (List.mem_cons_of_mem _ hm))
        (fun hm => h2 (List.mem_cons_of_mem _ hm))
      exact ⟨by rw [hrec.1], hrec.2⟩

theorem not_mem_sides_of_nodup {α : Type u} {l1 l2 : List α} {a : α}
    (h : (l1 ++ a :: l2).Nodup) : a ∉ l1 ∧ a ∉ l2 := by
  rw [List.nodup_append] at h
  obtain ⟨h1, h2, hdisj⟩ := h
  obtain ⟨ha, h3⟩ := List.pairwise_cons.mp h2
  exact ⟨fun hm => hdisj hm (List.mem_cons_self _ _), fun hm => (ha a hm) rfl⟩

theorem inorder_singleton {α : Type u} {t : AVLTree α} {x : α} (h : t.inorder = [x]) :
    ∃ hh, t = .node .nil x .nil hh := by
  cases t with
  | nil => simp at h
  | node l a r hh =>
    rw [AVLTree.inorder_node] at h
    cases hl : l.inorder with
    | cons y ys =>
      rw [hl] at h
      simp at h
    | nil =>
      rw [hl] at h
      simp only [List.nil_append, List.cons.injEq] at h
      obtain ⟨rfl, hr⟩ := h
      refine ⟨hh, ?_⟩
      rw [AVLTree.inorder_eq_nil.mp hl, AVLTree.inorder_eq_nil.mp hr]

namespace HashTable

variable {K V : Type} [LinearOrder K]

theorem tableList_split_at {ht : HashTable K V} (hwf : WF ht)
    {pre post : List (HashEntry K V)} {e : HashEntry K V}
    (hsp : tableList ht = pre ++ e :: post) :
    ∃ as bs P S,
      ht.live = as ++ ht.idxOf e.hash_val :: bs ∧
      ht.idxOf e.hash_val ∉ as ∧ ht.idxOf e.hash_val ∉ bs ∧
      (ht.bucketAt (ht.idxOf e.hash_val)).inorder = P ++ e :: S ∧
      pre = joinL (as.map fun j => (ht.bucketAt j).inorder) ++ P ∧
      post = S ++ joinL (bs.map fun j => (ht.bucketAt j).inorder) := by
  have hmem : e ∈ tableList ht := by
    rw [hsp]
    exact List.mem_append_right _ (List.mem_cons_self _ _)
  obtain ⟨hbk, hlive⟩ := mem_bucket_of_mem_tableList hwf hmem
  obtain ⟨as, bs, hsplit⟩ := List.append_of_mem hlive
  have hnodup := hwf.live_nodup
  rw [hsplit] at hnodup
  obtain ⟨hnas, hnbs⟩ := not_mem_sides_of_nodup hnodup
  obtain ⟨P, S, hPS⟩ := List.append_of_mem hbk
  have htl2 : tableList ht =
      (joinL (as.map fun j => (ht.bucketAt j).inorder) ++ P) ++
        e :: (S ++ joinL (bs.map fun j => (ht.bucketAt j).inorder)) := by
    unfold tableList
    rw [hsplit, List.map_append, joinL_append, List.map_cons, joinL_cons, hPS]
    simp [List.append_assoc]
  have hnd := tableList_nodup hwf
  have hnd1 := hnd
  rw [hsp] at hnd1
  obtain ⟨hpre, -⟩ := not_mem_sides_of_nodup hnd1
  have hnd2 := hnd
  rw [htl2] at hnd2
  obtain ⟨hpre2, -⟩ := not_mem_sides_of_nodup hnd2
  have := split_unique (hsp.symm.trans htl2) hpre hpre2
  exact ⟨as, bs, P, S, hsplit, hnas, hnbs, hPS, this.1, this.2⟩

theorem hash_erase_spec {ht : HashTable K V} (hwf : WF ht)
    {pre post : List (HashEntry K V)} {e : HashEntry K V}
    (hsp : tableList ht = pre ++ e :: post) :
    WF (ht.hash_erase e) ∧ tableList (ht.hash_erase e) = pre ++ post ∧
      (ht.hash_erase e).count = ht.count - 1 ∧
      (ht.hash_erase e).index_size = ht.index_size ∧
      (ht.hash_erase e).index_mask = ht.index_mask ∧
      (ht.hash_erase e).is_inline = ht.is_inline ∧
      ((ht.bucketAt (ht.idxOf e.hash_val)).inorder = [e] →
        (ht.hash_erase e).live = ht.live.erase (ht.idxOf e.hash_val)) ∧
      ((ht.bucketAt (ht.idxOf e.hash_val)).inorder ≠ [e] →
        (ht.hash_erase e).live = ht.live) := by
  obtain ⟨as, bs, P, S, hsplit, hnas, hnbs, hPS, hpre, hpost⟩ := tableList_split_at hwf hsp
  have hlt : ht.idxOf e.hash_val < ht.index_size := idxOf_lt hwf _
  have hltb : ht.idxOf e.hash_val < ht.buckets.length := by rw [hwf.blen]; exact hlt
  have hsorted := hwf.sorted (ht.idxOf e.hash_val)
  have hhts := hwf.hts (ht.idxOf e.hash_val)
  have hPSsorted := hsorted
  rw [hPS] at hPSsorted
  obtain ⟨sP, sES, hcross⟩ := List.pairwise_append.mp hPSsorted
  have hPn : ∀ x ∈ P, ¬ (x.hash_val = e.hash_val ∧ x.key = e.key) :=
    fun x hx => no_match_of_eLt_match (hcross x hx e (List.mem_cons_self _ _)) ⟨rfl, rfl⟩
  rcases hb : ht.bucketAt (ht.idxOf e.hash_val) with _ | ⟨l0, a0, r0, h0⟩
  · rw [hb] at hPS
    simp at hPS
  · rw [hb] at hPS hsorted hhts
    have hsingle_implies : (AVLTree.node l0 a0 r0 h0).inorder = [e] →
        a0.hash_val = e.hash_val ∧ a0.key = e.key ∧ h0 = 1 := by
      intro hone
      obtain ⟨hh, heq⟩ := inorder_singleton hone
      injection heq with e1 e2 e3 e4
      subst e2
      refine ⟨rfl, rfl, ?_⟩
      obtain ⟨-, -, hhe⟩ := hhts
      rw [e1, e3] at hhe
      simpa [AVLTree.hgt] using hhe
    by_cases hcond : a0.hash_val = e.hash_val ∧ a0.key = e.key ∧ h0 = 1
    · -- the node is the root and the bucket holds only it
      obtain ⟨hl0, hr0⟩ := AVLTree.singleton_of_height_one hhts hcond.2.2
      subst hl0
      subst hr0
      have haPS : [a0] = P ++ e :: S := by
        rw [← hPS]
        simp [AVLTree.inorder]
      have hkey : a0 = e ∧ P = [] ∧ S = [] := by
        cases P with
        | nil =>
          simp only [List.nil_append, List.cons.injEq] at haPS
          exact ⟨haPS.1, rfl, haPS.2.symm⟩
        | cons p ps =>
          simp only [List.cons_append, List.cons.injEq] at haPS
          exact absurd haPS.2.symm (by simp)
      obtain ⟨rfl, rfl, rfl⟩ := hkey
      have hio : (AVLTree.node (AVLTree.nil : AVLTree (HashEntry K V)) a0 .nil h0).inorder
          = [a0] := by simp [AVLTree.inorder]
      have herase : ht.hash_erase a0 = { ht with
          buckets := ht.buckets.set (ht.idxOf a0.hash_val) .nil,
          live := ht.live.erase (ht.idxOf a0.hash_val),
          count := ht.count - 1 } := by
        simp only [hash_erase, hb]
        simp [hcond.2.2]
      rw [herase]
      have hbself : (ht.buckets.set (ht.idxOf a0.hash_val) AVLTree.nil).getD
          (ht.idxOf a0.hash_val) AVLTree.nil = AVLTree.nil := getD_set_self hltb _ _
      have hbne : ∀ j, j ≠ ht.idxOf a0.hash_val →
          (ht.buckets.set (ht.idxOf a0.hash_val) AVLTree.nil).getD j AVLTree.nil
            = ht.buckets.getD j AVLTree.nil := fun j hj => getD_set_ne hj _ _
      have hlerase : ht.live.erase (ht.idxOf a0.hash_val) = as ++ bs := by
        rw [hsplit, List.erase_append_right _ hnas, List.erase_cons_head]
      have htl : tableList ({ ht with
          buckets := ht.buckets.set (ht.idxOf a0.hash_val) .nil,
          live := ht.live.erase (ht.idxOf a0.hash_val),
          count := ht.count - 1 } : HashTable K V) = pre ++ post := by
        rw [tableList_mk, hlerase, List.map_append, joinL_append]
        have hc1 := @joinL_map_congr _
          (fun i => ((ht.buckets.set (ht.idxOf a0.hash_val) AVLTree.nil).getD i
            AVLTree.nil).inorder)
          (fun i => (ht.bucketAt i).inorder)
          as
          (fun i hi => congrArg AVLTree.inorder (hbne i fun hc => hnas (hc ▸ hi)))
        have hc2 := @joinL_map_congr _
          (fun i => ((ht.buckets.set (ht.idxOf a0.hash_val) AVLTree.nil).getD i
            AVLTree.nil).inorder)
          (fun i => (ht.bucketAt i).inorder)
          bs
          (fun i hi => congrArg AVLTree.inorder (hbne i fun hc => hnbs (hc ▸ hi)))
        rw [hc1, hc2, hpre, hpost]
        simp
      refine ⟨?_, htl, rfl, rfl, rfl, rfl, fun _ => rfl, fun hc => absurd hio hc⟩
      constructor
      · exact hwf.pow
      · exact hwf.mask_eq
      · simp [hwf.blen]
      · intro i hi
        rw [hlerase] at hi
        rcases List.mem_append.mp hi with hi | hi
        · exact hwf.live_lt i (by rw [hsplit]; exact List.mem_append_left _ hi)
        · exact hwf.live_lt i
            (by rw [hsplit]; exact List.mem_append_right _ (List.mem_cons_of_mem _ hi))
      · rw [hlerase]
        have hsub : List.Sublist (as ++ bs) (as ++ ht.idxOf a0.hash_val :: bs) :=
          (List.Sublist.refl as).append (List.sublist_cons_self _ _)
        exact (hsplit ▸ hwf.live_nodup).sublist hsub
      · intro i
        rw [bucketAt_mk, hlerase]
        by_cases hi : i = ht.idxOf a0.hash_val
        · subst hi
          rw [hbself]
          simp only [ne_eq, not_true_eq_false, false_iff, List.mem_append]
          rintro (h | h)
          · exact hnas h
          · exact hnbs h
        · rw [hbne i hi]
          have hmi := hwf.live_iff i
          unfold bucketAt at hmi
          rw [hsplit] at hmi
          rw [hmi]
          simp only [List.mem_append, List.mem_cons]
          constructor
          · rintro (h | h | h)
            · exact Or.inl h
            · exact absurd h hi
            · exact Or.inr h
          · rintro (h | h)
            · exact Or.inl h
            · exact Or.inr (Or.inr h)
      · intro i
        rw [bucketAt_mk]
        by_cases hi : i = ht.idxOf a0.hash_val
        · subst hi
          rw [hbself]
          simp
        · rw [hbne i hi]
          exact hwf.sorted i
      · intro i x hx
        rw [bucketAt_mk] at hx
        by_cases hi : i = ht.idxOf a0.hash_val
        · subst hi
          rw [hbself] at hx
          simp at hx
        · rw [hbne i hi] at hx
          exact hwf.disp i x hx
      · intro i
        rw [bucketAt_mk]
        by_cases hi : i = ht.idxOf a0.hash_val
        · subst hi
          rw [hbself]
          trivial
        · rw [hbne i hi]
          exact hwf.hts i
      · rw [htl]
        have := hwf.cnt
        rw [hsp] at this
        simp only [List.length_append, List.length_cons] at this
        simp only [List.length_append]
        omega
    · -- general erase inside the bucket tree
      have herase : ht.hash_erase e = { ht with
          buckets := ht.buckets.set (ht.idxOf e.hash_val)
            (treeErase e.hash_val e.key (.node l0 a0 r0 h0)),
          count := ht.count - 1 } := by
        simp only [hash_erase, hb]
        rw [if_neg hcond]
      have hio : (treeErase e.hash_val e.key
          (AVLTree.node l0 a0 r0 h0)).inorder = P ++ S := by
        rw [treeErase_inorder hsorted, hPS, delL_append_left hPn, delL, if_pos ⟨rfl, rfl⟩]
      have hne : treeErase e.hash_val e.key (AVLTree.node l0 a0 r0 h0) ≠ .nil := by
        intro hc
        rw [hc] at hio
        simp only [AVLTree.inorder_nil] at hio
        obtain ⟨hP0, hS0⟩ := List.append_eq_nil.mp hio.symm
        subst hP0
        subst hS0
        exact hcond (hsingle_implies (by simpa using hPS))
      rw [herase]
      have hbself : (ht.buckets.set (ht.idxOf e.hash_val)
          (treeErase e.hash_val e.key (AVLTree.node l0 a0 r0 h0))).getD
          (ht.idxOf e.hash_val) AVLTree.nil
          = treeErase e.hash_val e.key (AVLTree.node l0 a0 r0 h0) :=
        getD_set_self hltb _ _
      have hbne : ∀ j, j ≠ ht.idxOf e.hash_val →
          (ht.buckets.set (ht.idxOf e.hash_val)
            (treeErase e.hash_val e.key (AVLTree.node l0 a0 r0 h0))).getD j AVLTree.nil
            = ht.buckets.getD j AVLTree.nil := fun j hj => getD_set_ne hj _ _
      have htl : tableList ({ ht with
          buckets := ht.buckets.set (ht.idxOf e.hash_val)
            (treeErase e.hash_val e.key (.node l0 a0 r0 h0)),
          count := ht.count - 1 } : HashTable K V) = pre ++ post := by
        rw [tableList_mk, hsplit, List.map_append, joinL_append, List.map_cons, joinL_cons]
        have hc1 := @joinL_map_congr _
          (fun i => ((ht.buckets.set (ht.idxOf e.hash_val)
            (treeErase e.hash_val e.key (AVLTree.node l0 a0 r0 h0))).getD i
              AVLTree.nil).inorder)
          (fun i => (ht.bucketAt i).inorder)
          as
          (fun i hi => congrArg AVLTree.inorder (hbne i fun hc => hnas (hc ▸ hi)))
        have hc2 := @joinL_map_congr _
          (fun i => ((ht.buckets.set (ht.idxOf e.hash_val)
            (treeErase e.hash_val e.key (AVLTree.node l0 a0 r0 h0))).getD i
              AVLTree.nil).inorder)
          (fun i => (ht.bucketAt i).inorder)
          bs
          (fun i hi => congrArg AVLTree.inorder (hbne i fun hc => hnbs (hc ▸ hi)))
        rw [hc1, hc2, hbself, hio, hpre, hpost]
        simp
      have hmemlive : ht.idxOf e.hash_val ∈ ht.live := by
        rw [hsplit]
        exact List.mem_append_right _ (List.mem_cons_self _ _)
      refine ⟨?_, htl, rfl, rfl, rfl, rfl,
        fun hone => absurd (hsingle_implies hone) hcond, fun _ => rfl⟩
      constructor
      · exact hwf.pow
      · exact hwf.mask_eq
      · simp [hwf.blen]
      · exact hwf.live_lt
      · exact hwf.live_nodup
      · intro i
        rw [bucketAt_mk]
        by_cases hi : i = ht.idxOf e.hash_val
        · subst hi
          rw [hbself]
          constructor
          · intro _
            exact hmemlive
          · intro _
            exact hne
        · rw [hbne i hi]
          exact hwf.live_iff i
      · intro i
        rw [bucketAt_mk]
        by_cases hi : i = ht.idxOf e.hash_val
        · subst hi
          rw [hbself]
          rw [← hb]
          exact treeErase_sorted (hwf.sorted _)
        · rw [hbne i hi]
          exact hwf.sorted i
      · intro i x hx
        rw [bucketAt_mk] at hx
        by_cases hi : i = ht.idxOf e.hash_val
        · subst hi
          rw [hbself, hio] at hx
          have hxold : x ∈ (ht.bucketAt (ht.idxOf e.hash_val)).inorder := by
            rw [hb, hPS]
            rcases List.mem_append.mp hx with h | h
            · exact List.mem_append_left _ h
            · exact List.mem_append_right _ (List.mem_cons_of_mem _ h)
          exact hwf.disp _ x hxold
        · rw [hbne i hi] at hx
          exact hwf.disp i x hx
      · intro i
        rw [bucketAt_mk]
        by_cases hi : i = ht.idxOf e.hash_val
        · subst hi
          rw [hbself]
          rw [← hb]
          exact treeErase_HtOk (hwf.hts _)
        · rw [hbne i hi]
          exact hwf.hts i
      · rw [htl]
        have := hwf.cnt
        rw [hsp] at this
        simp only [List.length_append, List.length_cons] at this
        simp only [List.length_append]
        omega

end HashTable

namespace HashTable

variable {K V : Type} [LinearOrder K]

theorem clearRec_nil {ht : HashTable K V} (h : ht.live = []) : clearRec ht = (ht, []) := by
  unfold clearRec
  split
  next heq => rfl
  next i rest heq =>
    rw [h] at heq
    cases heq

theorem clearRec_cons {ht : HashTable K V} {i : Nat} {rest : List Nat}
    (h : ht.live = i :: rest) :
    clearRec ht =
      ((clearRec { ht with
          buckets := ht.buckets.set i .nil,
          live := rest,
          count := ht.count - (ht.bucketAt i).postorder.length }).1,
        (ht.bucketAt i).postorder ++
          (clearRec { ht with
            buckets := ht.buckets.set i .nil,
            live := rest,
            count := ht.count - (ht.bucketAt i).postorder.length }).2) := by
  rw [clearRec.eq_def]
  split
  next heq =>
    rw [h] at heq
    cases heq
  next i' rest' heq =>
    rw [h] at heq
    injection heq with h1 h2
    subst h1
    subst h2
    rfl

theorem clearRec_go : ∀ (n : Nat) (ht : HashTable K V), ht.live.length ≤ n → WF ht →
    WF (clearRec ht).1 ∧ (clearRec ht).1.count = 0 ∧ tableList (clearRec ht).1 = [] ∧
      (clearRec ht).1.live = [] ∧
      (clearRec ht).2 = collectEntries ht ∧
      (clearRec ht).1.index_size = ht.index_size ∧
      (clearRec ht).1.index_mask = ht.index_mask ∧
      (clearRec ht).1.is_inline = ht.is_inline := by
  intro n
  induction n with
  | zero =>
    intro ht hlen hwf
    have hl : ht.live = [] := List.length_eq_zero.mp (Nat.le_zero.mp hlen)
    rw [clearRec_nil hl]
    have htl : tableList ht = [] := by
      unfold tableList
      rw [hl]
      rfl
    refine ⟨hwf, ?_, htl, hl, ?_, rfl, rfl, rfl⟩
    · rw [hwf.cnt, htl]
      rfl
    · unfold collectEntries
      rw [hl]
      rfl
  | succ n ih =>
    intro ht hlen hwf
    rcases hl : ht.live with _ | ⟨i, rest⟩
    · rw [clearRec_nil hl]
      have htl : tableList ht = [] := by
        unfold tableList
        rw [hl]
        rfl
      refine ⟨hwf, ?_, htl, hl, ?_, rfl, rfl, rfl⟩
      · rw [hwf.cnt, htl]
        rfl
      · unfold collectEntries
        rw [hl]
        rfl
    · have hlive_nodup := hwf.live_nodup
      rw [hl] at hlive_nodup
      obtain ⟨hni, hnd'⟩ := List.pairwise_cons.mp hlive_nodup
      have hilt : i < ht.index_size := hwf.live_lt i (by rw [hl]; exact List.mem_cons_self _ _)
      have hiltb : i < ht.buckets.length := by rw [hwf.blen]; exact hilt
      have htl0 : tableList ht = (ht.bucketAt i).inorder ++
          joinL (rest.map fun j => (ht.bucketAt j).inorder) := by
        unfold tableList
        rw [hl]
        rfl
      have hbself : (ht.buckets.set i AVLTree.nil).getD i AVLTree.nil = AVLTree.nil :=
        getD_set_self hiltb _ _
      have hbne : ∀ j, j ≠ i → (ht.buckets.set i AVLTree.nil).getD j AVLTree.nil
          = ht.buckets.getD j AVLTree.nil := fun j hj => getD_set_ne hj _ _
      have hpostlen : (ht.bucketAt i).postorder.length = (ht.bucketAt i).inorder.length :=
        (AVLTree.postorder_perm_inorder _).length_eq
      have htl' : tableList ({ ht with
          buckets := ht.buckets.set i .nil,
          live := rest,
          count := ht.count - (ht.bucketAt i).postorder.length } : HashTable K V)
          = joinL (rest.map fun j => (ht.bucketAt j).inorder) := by
        rw [tableList_mk]
        exact joinL_map_congr fun j hj =>
          congrArg AVLTree.inorder (hbne j fun hc => hni j hj hc.symm)
      have hwf' : WF ({ ht with
          buckets := ht.buckets.set i .nil,
          live := rest,
          count := ht.count - (ht.bucketAt i).postorder.length } : HashTable K V) := by
        constructor
        · exact hwf.pow
        · exact hwf.mask_eq
        · simp [hwf.blen]
        · intro j hj
          exact hwf.live_lt j (by rw [hl]; exact List.mem_cons_of_mem _ hj)
        · exact hnd'
        · intro j
          rw [bucketAt_mk]
          by_cases hj : j = i
          · subst hj
            rw [hbself]
            simp only [ne_eq, not_true_eq_false, false_iff]
            intro hc
            exact hni j hc rfl
          · rw [hbne j hj]
            have hmi := hwf.live_iff j
            unfold bucketAt at hmi
            rw [hl] at hmi
            rw [hmi]
            simp only [List.mem_cons]
            constructor
            · rintro (h | h)
              · exact absurd h hj
              · exact h
            · intro h
              exact Or.inr h
        · intro j
          rw [bucketAt_mk]
          by_cases hj : j = i
          · subst hj
            rw [hbself]
            simp
          · rw [hbne j hj]
            exact hwf.sorted j
        · intro j x hx
          rw [bucketAt_mk] at hx
          by_cases hj : j = i
          · subst hj
            rw [hbself] at hx
            simp at hx
          · rw [hbne j hj] at hx
            exact hwf.disp j x hx
        · intro j
          rw [bucketAt_mk]
          by_cases hj : j = i
          · subst hj
            rw [hbself]
            trivial
          · rw [hbne j hj]
            exact hwf.hts j
        · rw [htl']
          have := hwf.cnt
          rw [htl0] at this
          simp only [List.length_append] at this
          simp only
          omega
      have hlen' : rest.length ≤ n := by
        have := hlen
        rw [hl] at this
        simpa using this
      obtain ⟨w1, w2, w3, w4, w5, w6, w7, w8⟩ := ih _ hlen' hwf'
      rw [clearRec_cons hl]
      refine ⟨w1, w2, w3, w4, ?_, w6, w7, w8⟩
      simp only [w5]
      unfold collectEntries
      rw [hl]
      simp only [List.map_cons, joinL_cons]
      congr 1
      exact joinL_map_congr fun j hj =>
        congrArg AVLTree.postorder (hbne j fun hc => hni j hj hc.symm)

theorem clearRec_spec {ht : HashTable K V} (hwf : WF ht) :
    WF (clearRec ht).1 ∧ (clearRec ht).1.count = 0 ∧ tableList (clearRec ht).1 = [] ∧
      (clearRec ht).1.live = [] ∧
      (clearRec ht).2 = collectEntries ht ∧
      (clearRec ht).1.index_size = ht.index_size ∧
      (clearRec ht).1.index_mask = ht.index_mask ∧
      (clearRec ht).1.is_inline = ht.is_inline :=
  clearRec_go ht.live.length ht (Nat.le_refl _) hwf

theorem collectEntries_perm_tableList (ht : HashTable K V) :
    List.Perm (collectEntries ht) (tableList ht) :=
  joinL_map_perm fun i _ => AVLTree.postorder_perm_inorder (ht.bucketAt i)

end HashTable

namespace HashTable

theorem csizeGo_spec : ∀ (gas b test idx j nbytes : Nat), 0 < b → nbytes ≤ test + gas →
    test = b * idx → idx = 2 ^ j → (idx = 1 ∨ b * idx ≤ nbytes) →
    (∃ j2, csizeGo nbytes test idx = 2 ^ j2) ∧
      (b * csizeGo nbytes test idx ≤ nbytes ∨ csizeGo nbytes test idx = 1) ∧
      (∀ i2, b * 2 ^ i2 ≤ nbytes → 2 ^ i2 ≤ csizeGo nbytes test idx) := by
  intro gas
  induction gas with
  | zero =>
    intro b test idx j nbytes hb hle htest hidx hin
    have hpos : 0 < idx := by
      rw [hidx]
      exact Nat.pos_pow_of_pos j (by omega)
    have hguard : ¬ (0 < test ∧ 2 * test ≤ nbytes) := by
      rintro ⟨h1, h2⟩
      omega
    rw [csizeGo.eq_def, dif_neg hguard]
    refine ⟨⟨j, hidx⟩, ?_, ?_⟩
    · rcases hin with h | h
      · exact Or.inr h
      · exact Or.inl h
    · intro i2 hi2
      have hmul : b * 2 ^ i2 ≤ b * 2 ^ j := by
        calc b * 2 ^ i2 ≤ nbytes := hi2
          _ ≤ test := by omega
          _ = b * idx := htest
          _ = b * 2 ^ j := by rw [hidx]
      have := Nat.le_of_mul_le_mul_left hmul hb
      rw [hidx]
      exact this
  | succ gas ihg =>
    intro b test idx j nbytes hb hle htest hidx hin
    have hpos : 0 < idx := by
      rw [hidx]
      exact Nat.pos_pow_of_pos j (by omega)
    by_cases hguard : 0 < test ∧ 2 * test ≤ nbytes
    · rw [csizeGo.eq_def, dif_pos hguard]
      apply ihg b (2 * test) (2 * idx) (j + 1) nbytes hb
      · omega
      · rw [htest]
        ring
      · rw [hidx, Nat.pow_succ]
        ring
      · right
        rw [← Nat.mul_assoc, Nat.mul_comm b 2, Nat.mul_assoc, ← htest]
        exact hguard.2
    · rw [csizeGo.eq_def, dif_neg hguard]
      refine ⟨⟨j, hidx⟩, ?_, ?_⟩
      · rcases hin with h | h
        · exact Or.inr h
        · exact Or.inl h
      · intro i2 hi2
        have htpos : 0 < test := by
          rw [htest]
          exact Nat.mul_pos hb hpos
        have h2t : nbytes < 2 * test := by omega
        have hlt : b * 2 ^ i2 < b * 2 ^ (j + 1) := by
          calc b * 2 ^ i2 ≤ nbytes := hi2
            _ < 2 * test := h2t
            _ = 2 * (b * idx) := by rw [htest]
            _ = b * (2 * idx) := by ring
            _ = b * 2 ^ (j + 1) := by rw [hidx, Nat.pow_succ]; ring
        have hplt : (2 : Nat) ^ i2 < 2 ^ (j + 1) := Nat.lt_of_mul_lt_mul_left hlt
        have hij : i2 < j + 1 := by
          by_contra hcc
          push_neg at hcc
          exact absurd (Nat.pow_le_pow_right (by omega) hcc) (Nat.not_le.mpr hplt)
        rw [hidx]
        exact Nat.pow_le_pow_right (by omega) (by omega)

theorem computeIndexSize_spec (b nbytes : Nat) (hb : 0 < b) :
    (∃ j2, computeIndexSize b nbytes = 2 ^ j2) ∧
      (b * computeIndexSize b nbytes ≤ nbytes ∨ computeIndexSize b nbytes = 1) ∧
      (∀ i2, b * 2 ^ i2 ≤ nbytes → 2 ^ i2 ≤ computeIndexSize b nbytes) := by
  unfold computeIndexSize
  exact csizeGo_spec nbytes b b 1 0 nbytes hb (by omega) (by omega) (by norm_num)
    (Or.inl rfl)

theorem computeIndexSize_exact {b m j : Nat} (hb : 0 < b) (hm : m = 2 ^ j) :
    computeIndexSize b (b * m) = m := by
  obtain ⟨⟨j2, hj2⟩, hle, hmax⟩ := computeIndexSize_spec b (b * m) hb
  have h1 : m ≤ computeIndexSize b (b * m) := by
    have := hmax j (by rw [← hm])
    rw [← hm] at this
    exact this
  rcases hle with h | h
  · have h2 : computeIndexSize b (b * m) ≤ m := Nat.le_of_mul_le_mul_left h hb
    omega
  · have hm1 : 0 < m := by
      rw [hm]
      exact Nat.pos_pow_of_pos j (by omega)
    omega

theorem growSize_go : ∀ (gas need limit : Nat), 0 < need → limit ≤ need + gas →
    need ≤ growSize need limit ∧ limit ≤ growSize need limit ∧
      ∀ j, need = 2 ^ j → ∃ j2, growSize need limit = 2 ^ j2 := by
  intro gas
  induction gas with
  | zero =>
    intro need limit hpos hle
    have hguard : ¬ (0 < need ∧ need < limit) := by
      rintro ⟨h1, h2⟩
      omega
    rw [growSize.eq_def, dif_neg hguard]
    exact ⟨Nat.le_refl _, by omega, fun j hj => ⟨j, hj⟩⟩
  | succ gas ihg =>
    intro need limit hpos hle
    by_cases hguard : 0 < need ∧ need < limit
    · rw [growSize.eq_def, dif_pos hguard]
      obtain ⟨h1, h2, h3⟩ := ihg (2 * need) limit (by omega) (by omega)
      refine ⟨by omega, h2, ?_⟩
      intro j hj
      exact h3 (j + 1) (by rw [hj, Nat.pow_succ]; ring)
    · rw [growSize.eq_def, dif_neg hguard]
      exact ⟨Nat.le_refl _, by omega, fun j hj => ⟨j, hj⟩⟩

theorem growSize_spec {need limit : Nat} (hpos : 0 < need) :
    need ≤ growSize need limit ∧ limit ≤ growSize need limit ∧
      ∀ j, need = 2 ^ j → ∃ j2, growSize need limit = 2 ^ j2 :=
  growSize_go limit need limit hpos (by omega)

end HashTable

namespace HashTable

variable {K V : Type} [LinearOrder K]

theorem reinsertAll_go : ∀ (es : List (HashEntry K V)) (acc : HashTable K V), WF acc →
    (∀ e ∈ es, ∀ x ∈ tableList acc, ¬ (x.hash_val = e.hash_val ∧ x.key = e.key)) →
    (es.map ekey).Nodup →
    WF (reinsertAll acc es) ∧ (reinsertAll acc es).count = acc.count + es.length ∧
      List.Perm (tableList (reinsertAll acc es)) (es ++ tableList acc) ∧
      (reinsertAll acc es).index_size = acc.index_size ∧
      (reinsertAll acc es).index_mask = acc.index_mask ∧
      (reinsertAll acc es).is_inline = acc.is_inline := by
  intro es
  induction es with
  | nil =>
    intro acc hwf _ _
    exact ⟨hwf, rfl, by simp [reinsertAll], rfl, rfl, rfl⟩
  | cons e es ihe =>
    intro acc hwf hfresh hnd
    have habs : acc.hash_find e.hash_val e.key = none := by
      rw [hash_find_none_iff hwf]
      intro x hx
      exact hfresh e (List.mem_cons_self _ _) x hx
    obtain ⟨w1, -, w3, w4, w5, w6, w7, -⟩ := hash_add_absent hwf habs
    have hstep : reinsertAll acc (e :: es) = reinsertAll (acc.hash_add e).1 es := rfl
    rw [hstep]
    simp only [List.map_cons, List.nodup_cons] at hnd
    obtain ⟨hnde, hndes⟩ := hnd
    have hfresh' : ∀ e' ∈ es, ∀ x ∈ tableList (acc.hash_add e).1,
        ¬ (x.hash_val = e'.hash_val ∧ x.key = e'.key) := by
      intro e' he' x hx hc
      rcases List.mem_cons.mp (w4.mem_iff.mp hx) with rfl | hxold
      · apply hnde
        rw [List.mem_map]
        refine ⟨e', he', ?_⟩
        rw [ekey_eq_iff]
        exact ⟨hc.1.symm, hc.2.symm⟩
      · exact hfresh e' (List.mem_cons_of_mem _ he') x hxold hc
    obtain ⟨z1, z2, z3, z4, z5, z6⟩ := ihe _ w1 hfresh' hndes
    refine ⟨z1, ?_, ?_, ?_, ?_, ?_⟩
    · rw [z2, w3]
      simp only [List.length_cons]
      omega
    · refine z3.trans ?_
      have hp1 : List.Perm (es ++ tableList (acc.hash_add e).1)
          (es ++ (e :: tableList acc)) := (List.Perm.refl es).append w4
      refine hp1.trans ?_
      have : List.Perm (es ++ e :: tableList acc) (e :: (es ++ tableList acc)) :=
        List.perm_middle
      simpa using this
    · rw [z4, w5]
    · rw [z5, w6]
    · rw [z6, w7]

theorem collectEntries_nodupkeys {ht : HashTable K V} (hwf : WF ht) :
    ((collectEntries ht).map ekey).Nodup := by
  have hperm := (collectEntries_perm_tableList ht).map ekey
  exact hperm.nodup_iff.mpr (tableList_nodupkeys hwf)

theorem reinsert_collect_spec {ht base : HashTable K V} (hwf : WF ht) (hwfb : WF base)
    (hbase : tableList base = []) (hbc : base.count = 0) :
    WF (reinsertAll base (collectEntries ht)) ∧
      (reinsertAll base (collectEntries ht)).count = ht.count ∧
      List.Perm (tableList (reinsertAll base (collectEntries ht))) (tableList ht) ∧
      (reinsertAll base (collectEntries ht)).index_size = base.index_size ∧
      (reinsertAll base (collectEntries ht)).index_mask = base.index_mask ∧
      (reinsertAll base (collectEntries ht)).is_inline = base.is_inline := by
  obtain ⟨z1, z2, z3, z4, z5, z6⟩ := reinsertAll_go (collectEntries ht) base hwfb
    (by intro e _ x hx; rw [hbase] at hx; simp at hx) (collectEntries_nodupkeys hwf)
  refine ⟨z1, ?_, ?_, z4, z5, z6⟩
  · rw [z2, hbc]
    have := (collectEntries_perm_tableList ht).length_eq
    rw [hwf.cnt]
    omega
  · refine z3.trans ?_
    rw [hbase]
    simpa using collectEntries_perm_tableList ht

theorem hashIndexBytes_pos : 0 < hashIndexBytes := by decide

theorem hash_swap_fresh_spec {ht : HashTable K V} (hwf : WF ht) (n : Nat) :
    WF (ht.hash_swap (.fresh n)).1 ∧
      (ht.hash_swap (.fresh n)).1.count = ht.count ∧
      List.Perm (tableList (ht.hash_swap (.fresh n)).1) (tableList ht) ∧
      (ht.hash_swap (.fresh n)).1.index_size = computeIndexSize hashIndexBytes n ∧
      (ht.hash_swap (.fresh n)).1.is_inline = false ∧
      (ht.hash_swap (.fresh n)).2 = !ht.is_inline := by
  have hpow : ∃ j, computeIndexSize hashIndexBytes n = 2 ^ j :=
    (computeIndexSize_spec hashIndexBytes n hashIndexBytes_pos).1
  have hwfb : WF (emptyTable (K := K) (V := V) (computeIndexSize hashIndexBytes n) false) :=
    WF_emptyTable hpow false
  obtain ⟨z1, z2, z3, z4, z5, z6⟩ := reinsert_collect_spec hwf hwfb rfl rfl
  exact ⟨z1, z2, z3, z4, z6, rfl⟩

theorem hash_swap_toInit_spec {ht : HashTable K V} (hwf : WF ht) :
    WF (ht.hash_swap .toInit).1 ∧
      (ht.hash_swap .toInit).1.count = ht.count ∧
      List.Perm (tableList (ht.hash_swap .toInit).1) (tableList ht) ∧
      (ht.hash_swap .toInit).1.is_inline = true ∧
      (ht.is_inline = true → ht.hash_swap .toInit = (ht, false)) ∧
      (ht.is_inline = false → (ht.hash_swap .toInit).1.index_size = 8 ∧
        (ht.hash_swap .toInit).2 = true) := by
  by_cases hinl : ht.is_inline
  · rw [show ht.hash_swap .toInit = (ht, false) by simp [hash_swap, hinl]]
    exact ⟨hwf, rfl, List.Perm.refl _, hinl, fun _ => rfl, fun hc => by rw [hinl] at hc; cases hc⟩
  · have hwfb : WF (emptyTable (K := K) (V := V) 8 true) := WF_emptyTable ⟨3, rfl⟩ true
    obtain ⟨z1, z2, z3, z4, z5, z6⟩ := reinsert_collect_spec hwf hwfb rfl rfl
    rw [show ht.hash_swap .toInit
        = (reinsertAll (emptyTable 8 true) (collectEntries ht), true) by
      simp [hash_swap, hinl]]
    exact ⟨z1, z2, z3, z6, fun hc => absurd hc hinl, fun _ => ⟨z4, rfl⟩⟩

theorem hash_swap_same_spec (ht : HashTable K V) : ht.hash_swap .same = (ht, true) := rfl

theorem rehash_spec {ht : HashTable K V} (hwf : WF ht) (c : Nat) :
    WF (ht.rehash c) ∧ (ht.rehash c).count = ht.count ∧
      List.Perm (tableList (ht.rehash c)) (tableList ht) ∧
      ht.index_size ≤ (ht.rehash c).index_size ∧
      c * 6 / 4 ≤ (ht.rehash c).index_size := by
  have hszpos : 0 < ht.index_size := by
    obtain ⟨j, hj⟩ := hwf.pow
    rw [hj]
    exact Nat.pos_pow_of_pos j (by omega)
  unfold rehash
  by_cases hcond : ht.index_size < c * 6 / 4
  · rw [if_pos hcond]
    obtain ⟨g1, g2, g3⟩ := @growSize_spec ht.index_size (c * 6 / 4) hszpos
    obtain ⟨j0, hj0⟩ := hwf.pow
    obtain ⟨j2, hj2⟩ := g3 j0 hj0
    obtain ⟨z1, z2, z3, z4, z5, z6⟩ := hash_swap_fresh_spec hwf
      (growSize ht.index_size (c * 6 / 4) * hashIndexBytes)
    have hsize : (ht.hash_swap (.fresh (growSize ht.index_size (c * 6 / 4) *
        hashIndexBytes))).1.index_size = growSize ht.index_size (c * 6 / 4) := by
      rw [z4, Nat.mul_comm]
      exact computeIndexSize_exact hashIndexBytes_pos hj2
    exact ⟨z1, z2, z3, by omega, by omega⟩
  · rw [if_neg hcond]
    exact ⟨hwf, rfl, List.Perm.refl _, Nat.le_refl _, by omega⟩

end HashTable

theorem foldl_congr_fn {α β : Type u} {f g : β → α → β} {l : List α}
    (h : ∀ a ∈ l, ∀ acc, f acc a = g acc a) : ∀ b : β, l.foldl f b = l.foldl g b := by
  induction l with
  | nil => intro b; rfl
  | cons a l ih =>
    intro b
    simp only [List.foldl_cons]
    rw [h a (List.mem_cons_self _ _) b]
    exact ih (fun x hx acc => h x (List.mem_cons_of_mem _ hx) acc) _

section MapInvariant

variable {K V : Type} [LinearOrder K] (hashf : K → Nat)

/-- Map-level invariant: a well-formed table whose index size meets the
load-factor limit and whose entries store the hash of their own key. -/
structure MWF (ht : HashTable K V) : Prop where
  wf : HashTable.WF ht
  limit_le : calc_limit ht.count ≤ ht.index_size
  hconsist : ∀ e ∈ HashTable.tableList ht, e.hash_val = hashf e.key

/-- Table states reachable through the public mutating API of the map:
construction, insert, remove, clear, reserve and a terminating
shrink_to_fit. -/
inductive Reach : HashTable K V → Prop
  | cap (n : Nat) : Reach (withCapacity n)
  | ins {ht : HashTable K V} (k : K) (v : V) :
      Reach ht → Reach (mapInsert hashf ht k v).1
  | rem {ht : HashTable K V} (q : K) : Reach ht → Reach (mapRemove hashf ht q).1
  | clr {ht : HashTable K V} : Reach ht → Reach (mapClear ht)
  | res {ht : HashTable K V} (n : Nat) : Reach ht → Reach (mapReserve ht n)
  | shrink {ht ht' : HashTable K V} (fuel : Nat) :
      Reach ht → shrinkToFitFuel hashf fuel ht = some ht' → Reach ht'

theorem entry_eta {e : HashEntry K V} (h : e.hash_val = hashf e.key) :
    (⟨hashf e.key, e.key, e.value⟩ : HashEntry K V) = e := by
  cases e with
  | mk hv k v =>
    simp only at h
    rw [← h]

theorem withCapacity_MWF (n : Nat) : MWF hashf (withCapacity (K := K) (V := V) n) := by
  obtain ⟨z1, z2, z3, z4, z5⟩ :=
    HashTable.rehash_spec (HashTable.WF_initTable (K := K) (V := V)) n
  rw [HashTable.initTable_eq_emptyTable, HashTable.tableList_emptyTable] at z3
  have htl : HashTable.tableList (withCapacity (K := K) (V := V) n) = [] :=
    List.Perm.eq_nil z3
  refine ⟨z1, ?_, ?_⟩
  · have hc : (withCapacity (K := K) (V := V) n).count = 0 := z2
    rw [hc]
    exact Nat.zero_le _
  · rw [htl]
    intro e he
    simp at he

theorem mapInsert_spec_absent {ht : HashTable K V} (hm : MWF hashf ht) (k : K) (v : V)
    (habs : ht.hash_find (hashf k) k = none) :
    MWF hashf (mapInsert hashf ht k v).1 ∧
      (mapInsert hashf ht k v).2 = none ∧
      List.Perm (HashTable.tableList (mapInsert hashf ht k v).1)
        ((⟨hashf k, k, v⟩ : HashEntry K V) :: HashTable.tableList ht) ∧
      (mapInsert hashf ht k v).1.count = ht.count + 1 ∧
      capacity ht ≤ capacity (mapInsert hashf ht k v).1 := by
  obtain ⟨w1, w2, w3, w4, w5, -, -, -⟩ :=
    HashTable.hash_add_absent hm.wf (e := ⟨hashf k, k, v⟩) habs
  rcases hA : ht.hash_add ⟨hashf k, k, v⟩ with ⟨ht1, d1⟩
  rw [hA] at w1 w2 w3 w4 w5
  simp only at w1 w2 w3 w4 w5
  subst w2
  have hmi : mapInsert hashf ht k v = (default_rehash ht1, none) := by
    simp only [mapInsert, hA]
  rw [hmi]
  unfold default_rehash
  obtain ⟨z1, z2, z3, z4, z5⟩ := HashTable.rehash_spec w1 ht1.count
  have hperm2 : List.Perm (HashTable.tableList (default_rehash ht1))
      ((⟨hashf k, k, v⟩ : HashEntry K V) :: HashTable.tableList ht) := z3.trans w4
  refine ⟨⟨z1, ?_, ?_⟩, rfl, hperm2, ?_, ?_⟩
  · unfold calc_limit
    rw [z2]
    exact z5
  · intro e he
    rcases List.mem_cons.mp (hperm2.mem_iff.mp he) with rfl | hold
    · rfl
    · exact hm.hconsist e hold
  · rw [z2, w3]
  · unfold capacity
    rw [w5] at z4
    exact z4

theorem mapInsert_spec_dup {ht : HashTable K V} (hm : MWF hashf ht) (k : K) (v : V)
    {d : HashEntry K V} (hd : ht.hash_find (hashf k) k = some d) :
    MWF hashf (mapInsert hashf ht k v).1 ∧
      (mapInsert hashf ht k v).2 = some (d.key, d.value) ∧
      List.Perm (HashTable.tableList (mapInsert hashf ht k v).1) (HashTable.tableList ht) ∧
      (mapInsert hashf ht k v).1.count = ht.count ∧
      capacity ht ≤ capacity (mapInsert hashf ht k v).1 := by
  have hA := HashTable.hash_add_dup hm.wf (e := ⟨hashf k, k, v⟩) hd
  have hmi : mapInsert hashf ht k v = (default_rehash ht, some (d.key, d.value)) := by
    simp only [mapInsert, hA]
  rw [hmi]
  unfold default_rehash
  obtain ⟨z1, z2, z3, z4, z5⟩ := HashTable.rehash_spec hm.wf ht.count
  refine ⟨⟨z1, ?_, ?_⟩, rfl, z3, z2, z4⟩
  · unfold calc_limit
    rw [z2]
    exact z5
  · intro e he
    exact hm.hconsist e (z3.mem_iff.mp he)

theorem mapInsert_MWF {ht : HashTable K V} (hm : MWF hashf ht) (k : K) (v : V) :
    MWF hashf (mapInsert hashf ht k v).1 ∧
      capacity ht ≤ capacity (mapInsert hashf ht k v).1 := by
  rcases hfind : ht.hash_find (hashf k) k with _ | d
  · obtain ⟨h1, -, -, -, h5⟩ := mapInsert_spec_absent hashf hm k v hfind
    exact ⟨h1, h5⟩
  · obtain ⟨h1, -, -, -, h5⟩ := mapInsert_spec_dup hashf hm k v hfind
    exact ⟨h1, h5⟩

theorem mapRemove_spec_found {ht : HashTable K V} (hm : MWF hashf ht) (q : K)
    {e : HashEntry K V} (he : ht.hash_find (hashf q) q = some e) :
    MWF hashf (mapRemove hashf ht q).1 ∧
      (mapRemove hashf ht q).2 = some (e.key, e.value) ∧
      (mapRemove hashf ht q).1 = ht.hash_erase e ∧
      (mapRemove hashf ht q).1.count = ht.count - 1 := by
  have hmem : e ∈ HashTable.tableList ht := ((HashTable.hash_find_some_iff hm.wf).mp he).1
  obtain ⟨pre, post, hsp⟩ := List.append_of_mem hmem
  obtain ⟨w1, w2, w3, -, -, -, -, -⟩ := HashTable.hash_erase_spec hm.wf hsp
  have hmr : mapRemove hashf ht q = (ht.hash_erase e, some (e.key, e.value)) := by
    simp only [mapRemove, he]
  rw [hmr]
  refine ⟨⟨w1, ?_, ?_⟩, rfl, rfl, w3⟩
  · have h1 : calc_limit (ht.hash_erase e).count ≤ calc_limit ht.count := by
      unfold calc_limit
      exact Nat.div_le_div_right (Nat.mul_le_mul_right _ (by rw [w3]; omega))
    have h2 : (ht.hash_erase e).index_size = ht.index_size := by
      obtain ⟨-, -, -, h4, -⟩ := HashTable.hash_erase_spec hm.wf hsp
      simp only [h4]
    rw [h2]
    exact le_trans h1 hm.limit_le
  · intro x hx
    apply hm.hconsist
    rw [hsp, w2] at *
    rcases List.mem_append.mp hx with h | h
    · exact List.mem_append_left _ h
    · exact List.mem_append_right _ (List.mem_cons_of_mem _ h)

theorem mapRemove_MWF {ht : HashTable K V} (hm : MWF hashf ht) (q : K) :
    MWF hashf (mapRemove hashf ht q).1 := by
  rcases hfind : ht.hash_find (hashf q) q with _ | e
  · have : mapRemove hashf ht q = (ht, none) := by simp only [mapRemove, hfind]
    rw [this]
    exact hm
  · exact (mapRemove_spec_found hashf hm q hfind).1

theorem mapClear_MWF {ht : HashTable K V} (hm : MWF hashf ht) :
    MWF hashf (mapClear ht) := by
  obtain ⟨w1, w2, w3, -, -, -, -, -⟩ := HashTable.clearRec_spec hm.wf
  refine ⟨w1, ?_, ?_⟩
  · unfold mapClear
    rw [w2]
    exact Nat.zero_le _
  · unfold mapClear
    rw [w3]
    intro e he
    simp at he

theorem mapReserve_MWF {ht : HashTable K V} (hm : MWF hashf ht) (n : Nat) :
    MWF hashf (mapReserve ht n) ∧ capacity ht ≤ capacity (mapReserve ht n) := by
  obtain ⟨z1, z2, z3, z4, z5⟩ := HashTable.rehash_spec hm.wf n
  unfold mapReserve
  refine ⟨⟨z1, ?_, ?_⟩, z4⟩
  · unfold calc_limit
    rw [z2]
    calc ht.count * 6 / 4 ≤ ht.index_size := hm.limit_le
      _ ≤ (ht.rehash n).index_size := z4
  · intro e he
    exact hm.hconsist e (z3.mem_iff.mp he)

theorem shrink_rebuild_spec {ht : HashTable K V} (hm : MWF hashf ht) :
    MWF hashf (((HashTable.clearRec ht).2).foldl
        (fun h e => (HashTable.hash_add h ⟨hashf e.key, e.key, e.value⟩).1)
        (HashTable.initTable.rehash ht.count)) ∧
      (((HashTable.clearRec ht).2).foldl
        (fun h e => (HashTable.hash_add h ⟨hashf e.key, e.key, e.value⟩).1)
        (HashTable.initTable.rehash ht.count)).count = ht.count ∧
      List.Perm (HashTable.tableList (((HashTable.clearRec ht).2).foldl
        (fun h e => (HashTable.hash_add h ⟨hashf e.key, e.key, e.value⟩).1)
        (HashTable.initTable.rehash ht.count))) (HashTable.tableList ht) := by
  obtain ⟨-, -, -, -, w5, -, -, -⟩ := HashTable.clearRec_spec hm.wf
  obtain ⟨z1, z2, z3, z4, z5⟩ :=
    HashTable.rehash_spec (HashTable.WF_initTable (K := K) (V := V)) ht.count
  have hbase_tl : HashTable.tableList (HashTable.initTable.rehash (K := K) (V := V) ht.count)
      = [] := List.Perm.eq_nil (by exact z3)
  have hdropsc : ∀ e ∈ (HashTable.clearRec ht).2, e.hash_val = hashf e.key := by
    intro e he
    apply hm.hconsist
    rw [w5] at he
    exact (HashTable.collectEntries_perm_tableList ht).mem_iff.mp he
  have hfold : ((HashTable.clearRec ht).2).foldl
      (fun h e => (HashTable.hash_add h ⟨hashf e.key, e.key, e.value⟩).1)
      (HashTable.initTable.rehash ht.count)
      = HashTable.reinsertAll (HashTable.initTable.rehash ht.count)
          (HashTable.clearRec ht).2 := by
    unfold HashTable.reinsertAll
    exact foldl_congr_fn (fun e he acc => by rw [entry_eta hashf (hdropsc e he)]) _
  rw [hfold, w5]
  obtain ⟨y1, y2, y3, y4, y5, y6⟩ :=
    HashTable.reinsert_collect_spec hm.wf z1 hbase_tl z2
  refine ⟨⟨y1, ?_, ?_⟩, y2, y3⟩
  · rw [y2, y4]
    unfold calc_limit
    exact z5
  · intro e he
    rcases y3.mem_iff.mp he with h
    exact hm.hconsist e h

theorem shrinkToFitFuel_MWF {ht ht' : HashTable K V} (hm : MWF hashf ht) {fuel : Nat}
    (h : shrinkToFitFuel hashf fuel ht = some ht') :
    MWF hashf ht' ∧ ht'.count = ht.count ∧
      List.Perm (HashTable.tableList ht') (HashTable.tableList ht) := by
  unfold shrinkToFitFuel at h
  rcases hloop : shrinkLoop fuel (calc_limit ht.count) ht.index_size with _ | nsz
  · rw [hloop] at h
    cases h
  · rw [hloop] at h
    simp only at h
    by_cases hif : ht.index_size ≤ nsz
    · rw [if_pos hif] at h
      injection h with h
      subst h
      exact ⟨hm, rfl, List.Perm.refl _⟩
    · rw [if_neg hif] at h
      injection h with h
      subst h
      obtain ⟨s1, s2, s3⟩ := shrink_rebuild_spec hashf hm
      exact ⟨s1, s2, s3⟩

theorem reach_MWF {ht : HashTable K V} (hr : Reach hashf ht) : MWF hashf ht := by
  induction hr with
  | cap n => exact withCapacity_MWF hashf n
  | ins k v _ ih => exact (mapInsert_MWF hashf ih k v).1
  | rem q _ ih => exact mapRemove_MWF hashf ih q
  | clr _ ih => exact mapClear_MWF hashf ih
  | res n _ ih => exact (mapReserve_MWF hashf ih n).1
  | shrink fuel _ hs ih => exact (shrinkToFitFuel_MWF hashf ih hs).1

end MapInvariant

section ShrinkLemmas

variable {K V : Type} [LinearOrder K] (hashf : K → Nat)

theorem shrinkLoop_zero_limit : ∀ fuel n, shrinkLoop fuel 0 n = none := by
  intro fuel
  induction fuel with
  | zero => intro n; rfl
  | succ f ih =>
    intro n
    have hstep : shrinkLoop (f + 1) 0 n = shrinkLoop f 0 (n / 2) := by
      simp only [shrinkLoop]
      rw [if_pos (Nat.zero_le _)]
    rw [hstep]
    exact ih (n / 2)

theorem shrinkLoop_pow2_spec :
    ∀ fuel j n limit, n = 2 ^ j → 0 < limit → limit ≤ n → n < fuel →
      ∃ s j2, shrinkLoop fuel limit n = some s ∧ s = 2 ^ j2 ∧
        limit ≤ s ∧ s < 2 * limit ∧ s ≤ n := by
  intro fuel
  induction fuel with
  | zero => intro j n limit _ _ _ h; omega
  | succ f ih =>
    intro j n limit hn hl hln hf
    by_cases hc : limit ≤ n / 2
    · have hn2 : 2 ≤ n := by omega
      obtain ⟨j1, rfl⟩ : ∃ j1, j = j1 + 1 := by
        cases j with
        | zero => rw [pow_zero] at hn; omega
        | succ j1 => exact ⟨j1, rfl⟩
      have hhalf : n / 2 = 2 ^ j1 := by
        rw [hn, pow_succ]
        omega
      obtain ⟨s, j2, r1, r2, r3, r4, r5⟩ :=
        ih j1 (n / 2) limit hhalf hl hc (by omega)
      have hstep : shrinkLoop (f + 1) limit n = shrinkLoop f limit (n / 2) := by
        simp only [shrinkLoop]
        rw [if_pos hc]
      exact ⟨s, j2, by rw [hstep]; exact r1, r2, r3, r4, by omega⟩
    · refine ⟨n, j, ?_, hn, hln, by omega, le_refl n⟩
      unfold shrinkLoop
      rw [if_neg hc]

theorem smallest_pow2 {limit s : Nat} {j2 : Nat} (hs : s = 2 ^ j2)
    (h1 : limit ≤ s) (h2 : s < 2 * limit) :
    ∀ j3, limit ≤ 2 ^ j3 → s ≤ 2 ^ j3 := by
  intro j3 hj3
  rcases Nat.lt_or_ge j3 j2 with h | h
  · exfalso
    have hstep : 2 ^ j3 * 2 ≤ 2 ^ j2 := by
      calc 2 ^ j3 * 2 = 2 ^ (j3 + 1) := (pow_succ 2 j3).symm
        _ ≤ 2 ^ j2 := Nat.pow_le_pow_right (by omega) (by omega)
    omega
  · rw [hs]
    exact Nat.pow_le_pow_right (by omega) h

theorem calc_limit_pos {c : Nat} (hc : 1 ≤ c) : 1 ≤ calc_limit c := by
  unfold calc_limit
  omega

/-- For a well-formed nonempty table, the halving loop of shrink_to_fit
(with fuel index_size + 1) terminates at the smallest power of two s
with calc_limit count ≤ s, and shrink_to_fit returns: the table itself
when s is not below the current index_size, and otherwise a rebuilt
well-formed table with the same count, a permutation of the same
entries, and capacity s2 still at or above calc_limit count. -/
theorem shrinkToFit_spec {ht : HashTable K V} (hm : MWF hashf ht) (hpos : 1 ≤ ht.count) :
    ∃ s j2, shrinkLoop (ht.index_size + 1) (calc_limit ht.count) ht.index_size = some s ∧
      s = 2 ^ j2 ∧ calc_limit ht.count ≤ s ∧
      (∀ j3, calc_limit ht.count ≤ 2 ^ j3 → s ≤ 2 ^ j3) ∧
      (ht.index_size ≤ s → shrinkToFitFuel hashf (ht.index_size + 1) ht = some ht) ∧
      (s < ht.index_size →
        ∃ ht2, shrinkToFitFuel hashf (ht.index_size + 1) ht = some ht2 ∧
          MWF hashf ht2 ∧ ht2.count = ht.count ∧
          List.Perm (HashTable.tableList ht2) (HashTable.tableList ht) ∧
          calc_limit ht2.count ≤ capacity ht2) := by
  obtain ⟨j, hj⟩ := hm.wf.pow
  have hl1 : 1 ≤ calc_limit ht.count := calc_limit_pos hpos
  obtain ⟨s, j2, r1, r2, r3, r4, r5⟩ :=
    shrinkLoop_pow2_spec (ht.index_size + 1) j ht.index_size (calc_limit ht.count)
      hj hl1 hm.limit_le (by omega)
  refine ⟨s, j2, r1, r2, r3, smallest_pow2 r2 r3 r4, ?_, ?_⟩
  · intro hge
    unfold shrinkToFitFuel
    rw [r1]
    simp only [if_pos hge]
  · intro hlt
    obtain ⟨s1, s2, s3⟩ := shrink_rebuild_spec hashf hm
    refine ⟨_, ?_, s1, s2, s3, ?_⟩
    · unfold shrinkToFitFuel
      rw [r1]
      simp only [if_neg (by omega : ¬ ht.index_size ≤ s)]
    · have h5 := s1.limit_le
      rw [s2] at h5
      rw [s2]
      exact h5

end ShrinkLemmas

namespace HashTable

variable {K V : Type} [LinearOrder K]

theorem node_first_head {ht : HashTable K V} (hwf : WF ht) :
    node_first ht = (tableList ht).head? := by
  unfold node_first tableList
  cases hl : ht.live with
  | nil => rfl
  | cons i rest =>
    simp only [List.map_cons, joinL_cons]
    have hi : i ∈ ht.live := by
      rw [hl]
      exact List.mem_cons_self _ _
    have hne : ht.bucketAt i ≠ .nil := (hwf.live_iff i).mpr hi
    cases hio : (ht.bucketAt i).inorder with
    | nil => exact absurd (AVLTree.inorder_eq_nil.mp hio) hne
    | cons a tl => simp

theorem node_next_split {ht : HashTable K V} (hwf : WF ht)
    {pre post : List (HashEntry K V)} {e : HashEntry K V}
    (hsp : tableList ht = pre ++ e :: post) :
    node_next ht e = post.head? := by
  obtain ⟨as, bs, P, S, hsplit, hnas, hnbs, hPS, hpre, hpost⟩ := tableList_split_at hwf hsp
  have hsort := hwf.sorted (ht.idxOf e.hash_val)
  rw [hPS] at hsort
  have hP : ∀ x ∈ P, ¬ (x.hash_val = e.hash_val ∧ x.key = e.key) := by
    intro x hx hcon
    obtain ⟨hc1, hc2⟩ := hcon
    have hlt : eLt x e :=
      (List.pairwise_append.mp hsort).2.2 x hx e (List.mem_cons_self _ _)
    rcases hlt with h | ⟨h, hk⟩
    · exact absurd hc1 (Nat.ne_of_lt h)
    · exact absurd hc2 (ne_of_lt hk)
  have hls : listSucc e.hash_val e.key
      (ht.bucketAt (ht.idxOf e.hash_val)).inorder = S.head? := by
    rw [hPS, listSucc_append hP, listSucc_cons_match ⟨rfl, rfl⟩]
  simp only [node_next]
  rw [hls]
  cases hS : S with
  | cons a S2 =>
    simp only [List.head?]
    rw [hpost, hS]
    rfl
  | nil =>
    simp only [List.head?]
    have hnil : nextInList ht.live (ht.idxOf e.hash_val) = bs.head? := by
      rw [hsplit]
      exact nextInList_append hnas bs
    rw [hnil]
    cases hbs : bs with
    | nil =>
      rw [hpost, hS, hbs]
      rfl
    | cons j bs2 =>
      simp only [List.head?]
      have hj : j ∈ ht.live := by
        rw [hsplit, hbs]
        exact List.mem_append_right _ (List.mem_cons_of_mem _ (List.mem_cons_self _ _))
      have hne : ht.bucketAt j ≠ .nil := (hwf.live_iff j).mpr hj
      cases hio : (ht.bucketAt j).inorder with
      | nil => exact absurd (AVLTree.inorder_eq_nil.mp hio) hne
      | cons a tl =>
        rw [hpost, hS, hbs]
        simp [hio]

theorem iterFrom_suffix {ht : HashTable K V} (hwf : WF ht) :
    ∀ (rest pre : List (HashEntry K V)), tableList ht = pre ++ rest →
      iterFrom ht rest.length rest.head? = rest.map fun e => (e.key, e.value) := by
  intro rest
  induction rest with
  | nil => intro pre h; rfl
  | cons e rest ih =>
    intro pre h
    have hnn : ht.node_next e = rest.head? := node_next_split hwf h
    simp only [List.length_cons, List.head?, iterFrom]
    rw [hnn, ih (pre ++ [e]) (by rw [h]; simp)]
    rfl

/-- Iter::next over the whole table yields exactly the pairs of
tableList, in tableList order. -/
theorem iterList_eq {ht : HashTable K V} (hwf : WF ht) :
    iterList ht = (tableList ht).map fun e => (e.key, e.value) := by
  unfold iterList
  rw [node_first_head hwf, hwf.cnt]
  exact iterFrom_suffix hwf (tableList ht) [] rfl

theorem intoAll_drain :
    ∀ (rest : List (HashEntry K V)) (ht : HashTable K V), WF ht → tableList ht = rest →
      (intoAll ht rest.length rest.head?).1 = rest.map (fun e => (e.key, e.value)) ∧
        tableList (intoAll ht rest.length rest.head?).2 = [] ∧
        (intoAll ht rest.length rest.head?).2.count = 0 := by
  intro rest
  induction rest with
  | nil =>
    intro ht hwf h
    refine ⟨rfl, h, ?_⟩
    show ht.count = 0
    rw [hwf.cnt, h]
    rfl
  | cons e rest ih =>
    intro ht hwf h
    have hsp : tableList ht = [] ++ e :: rest := by simp [h]
    have hnn : ht.node_next e = rest.head? := node_next_split hwf hsp
    obtain ⟨w1, w2, -, -, -, -, -, -⟩ := hash_erase_spec hwf hsp
    obtain ⟨ih1, ih2, ih3⟩ := ih (ht.hash_erase e) w1 (by rw [w2]; rfl)
    refine ⟨?_, ?_, ?_⟩
    · simp only [List.length_cons, List.head?, intoAll]
      rw [hnn, ih1]
      rfl
    · simp only [List.length_cons, List.head?, intoAll]
      rw [hnn]
      exact ih2
    · simp only [List.length_cons, List.head?, intoAll]
      rw [hnn]
      exact ih3

end HashTable

/-- C1: the spec claims that for a map already containing key k with value v1,
insert(k, v2) returns Some((k, v1)), get(&k) then returns Some(v2), and len()
is unchanged.  In the code hash_table_update only calls hash_add, which on a
duplicate returns the existing entry without splicing the new one in
(hash_replace is never called), so the old entry stays in the tree: the insert
does return Some((k, v1)) and len() is unchanged, but get(&k) afterwards still
returns the OLD value Some(v1), contradicting the claimed Some(v2) whenever
v1 ≠ v2. -/
theorem C1_duplicate_insert_keeps_old_value {K V : Type} [LinearOrder K]
    (hashf : K → Nat) {ht : HashTable K V} (hr : Reach hashf ht) (k : K) (v1 : V)
    (hget : mapGet hashf ht k = some v1) (v2 : V) :
    (mapInsert hashf ht k v2).2 = some (k, v1) ∧
      mapLen (mapInsert hashf ht k v2).1 = mapLen ht ∧
      mapGet hashf (mapInsert hashf ht k v2).1 k = some v1 ∧
      (v1 ≠ v2 → mapGet hashf (mapInsert hashf ht k v2).1 k ≠ some v2) := by
  have hm := reach_MWF hashf hr
  unfold mapGet at hget
  rcases hfd : ht.hash_find (hashf k) k with _ | d
  · rw [hfd] at hget
    simp at hget
  · rw [hfd] at hget
    have hdv : d.value = v1 := by simpa using hget
    obtain ⟨hm1, hsnd, hperm, hcnt, -⟩ := mapInsert_spec_dup hashf hm k v2 hfd
    have hfacts := (HashTable.hash_find_some_iff hm.wf).mp hfd
    have hdm : d ∈ HashTable.tableList (mapInsert hashf ht k v2).1 :=
      hperm.mem_iff.mpr hfacts.1
    have hf1 : (mapInsert hashf ht k v2).1.hash_find (hashf k) k = some d :=
      (HashTable.hash_find_some_iff hm1.wf).mpr ⟨hdm, hfacts.2.1, hfacts.2.2⟩
    have hget1 : mapGet hashf (mapInsert hashf ht k v2).1 k = some d.value := by
      unfold mapGet
      rw [hf1]
      rfl
    refine ⟨?_, ?_, ?_, ?_⟩
    · rw [hsnd, hfacts.2.2, hdv]
    · unfold mapLen
      rw [hcnt]
    · rw [hget1, hdv]
    · intro hne hc
      rw [hget1, hdv] at hc
      exact hne (Option.some.inj hc)

theorem C1_witness :
    mapGet (fun k : Nat => k) (mapInsert (fun k : Nat => k) mapNew 1 10).1 1 = some 10 ∧
      (mapInsert (fun k : Nat => k)
        (mapInsert (fun k : Nat => k) mapNew 1 10).1 1 20).2 = some (1, 10) ∧
      mapLen (mapInsert (fun k : Nat => k)
        (mapInsert (fun k : Nat => k) mapNew 1 10).1 1 20).1 = 1 ∧
      mapGet (fun k : Nat => k) (mapInsert (fun k : Nat => k)
        (mapInsert (fun k : Nat => k) mapNew 1 10).1 1 20).1 1 = some 10 ∧
      mapGet (fun k : Nat => k) (mapInsert (fun k : Nat => k)
        (mapInsert (fun k : Nat => k) mapNew 1 10).1 1 20).1 1 ≠ some 20 := by
  have h := C1_duplicate_insert_keeps_old_value (fun k : Nat => k)
    (Reach.ins 1 10 (Reach.cap 0)) 1 10 (by decide) 20
  exact ⟨by decide, h.1, h.2.1.trans (by decide), h.2.2.1, h.2.2.2 (by decide)⟩

/-- C2: for a map not containing key k, insert(k, v) followed by get(&k)
yields Some(v); remove(&k) on the result returns Some((k, v)), after which
get(&k) returns None.  Confirmed against the model of insert/find/erase. -/
theorem C2_roundtrip {K V : Type} [LinearOrder K] (hashf : K → Nat)
    {ht : HashTable K V} (hr : Reach hashf ht) (k : K) (v : V)
    (habs : mapContains hashf ht k = false) :
    mapGet hashf (mapInsert hashf ht k v).1 k = some v ∧
      (mapRemove hashf (mapInsert hashf ht k v).1 k).2 = some (k, v) ∧
      mapGet hashf (mapRemove hashf (mapInsert hashf ht k v).1 k).1 k = none := by
  have hm := reach_MWF hashf hr
  have hfind : ht.hash_find (hashf k) k = none := by
    unfold mapContains at habs
    cases hf : ht.hash_find (hashf k) k with
    | none => rfl
    | some e =>
      rw [hf] at habs
      cases habs
  obtain ⟨hm1, -, hperm, -, -⟩ := mapInsert_spec_absent hashf hm k v hfind
  have hmem : (⟨hashf k, k, v⟩ : HashEntry K V)
      ∈ HashTable.tableList (mapInsert hashf ht k v).1 :=
    hperm.mem_iff.mpr (List.mem_cons_self _ _)
  have hf1 : (mapInsert hashf ht k v).1.hash_find (hashf k) k
      = some ⟨hashf k, k, v⟩ :=
    (HashTable.hash_find_some_iff hm1.wf).mpr ⟨hmem, rfl, rfl⟩
  have hget1 : mapGet hashf (mapInsert hashf ht k v).1 k = some v := by
    unfold mapGet
    rw [hf1]
    rfl
  obtain ⟨hm2, hr2, hr1eq, -⟩ := mapRemove_spec_found hashf hm1 k hf1
  obtain ⟨pre, post, hsp⟩ := List.append_of_mem hmem
  obtain ⟨w1, w2, -, -, -, -, -, -⟩ := HashTable.hash_erase_spec hm1.wf hsp
  have hnd := HashTable.tableList_nodup hm1.wf
  rw [hsp] at hnd
  obtain ⟨hnp, hns⟩ := not_mem_sides_of_nodup hnd
  have hnone : ((mapInsert hashf ht k v).1.hash_erase
      (⟨hashf k, k, v⟩ : HashEntry K V)).hash_find (hashf k) k = none := by
    rw [HashTable.hash_find_none_iff w1]
    intro x hx hcon
    rw [w2] at hx
    have hx1 : x ∈ HashTable.tableList (mapInsert hashf ht k v).1 := by
      rw [hsp]
      rcases List.mem_append.mp hx with h | h
      · exact List.mem_append_left _ h
      · exact List.mem_append_right _ (List.mem_cons_of_mem _ h)
    have hxe : x = ⟨hashf k, k, v⟩ :=
      HashTable.tableList_entry_unique hm1.wf hx1 hmem
        (HashTable.ekey_eq_iff.mpr ⟨hcon.1, hcon.2⟩)
    subst hxe
    rcases List.mem_append.mp hx with h | h
    · exact hnp h
    · exact hns h
  refine ⟨hget1, hr2, ?_⟩
  rw [hr1eq]
  unfold mapGet
  rw [hnone]
  rfl

theorem C2_witness :
    mapContains (fun k : Nat => k) (mapNew : HashTable Nat Nat) 1 = false ∧
      mapGet (fun k : Nat => k) (mapInsert (fun k : Nat => k) mapNew 1 10).1 1
        = some 10 ∧
      (mapRemove (fun k : Nat => k)
        (mapInsert (fun k : Nat => k) mapNew 1 10).1 1).2 = some (1, 10) ∧
      mapGet (fun k : Nat => k) (mapRemove (fun k : Nat => k)
        (mapInsert (fun k : Nat => k) mapNew 1 10).1 1).1 1 = none :=
  ⟨by decide, C2_roundtrip (fun k : Nat => k) (Reach.cap 0) 1 10 (by decide)⟩

/-- C3: hash_add dispatches the node to bucket hash & index_mask; on a
duplicate (equal hash_val and key already in that bucket) it returns the
existing node, inserts nothing and leaves count unchanged; otherwise it
inserts the node into that bucket, returns null, increments count, and if
the target bucket was empty it is appended to the tail of the live-bucket
list.  Confirmed against the model. -/
theorem C3_hash_add_spec {K V : Type} [LinearOrder K] {ht : HashTable K V}
    (hwf : HashTable.WF ht) (e : HashEntry K V) :
    (∀ d, ht.hash_find e.hash_val e.key = some d → ht.hash_add e = (ht, some d)) ∧
      (ht.hash_find e.hash_val e.key = none →
        (ht.hash_add e).2 = none ∧
        (ht.hash_add e).1.count = ht.count + 1 ∧
        e ∈ ((ht.hash_add e).1.bucketAt (ht.idxOf e.hash_val)).inorder ∧
        (∀ j, j ≠ ht.idxOf e.hash_val → (ht.hash_add e).1.bucketAt j = ht.bucketAt j) ∧
        (ht.bucketAt (ht.idxOf e.hash_val) = .nil →
          (ht.hash_add e).1.live = ht.live ++ [ht.idxOf e.hash_val]) ∧
        (ht.bucketAt (ht.idxOf e.hash_val) ≠ .nil →
          (ht.hash_add e).1.live = ht.live)) := by
  refine ⟨fun d hd => HashTable.hash_add_dup hwf hd, fun habs => ?_⟩
  obtain ⟨w1, w2, w3, w4, w5, w6, w7, w8, w9, w10⟩ := HashTable.hash_add_absent hwf habs
  refine ⟨w2, w3, ?_, w10, w8, w9⟩
  have hmem : e ∈ HashTable.tableList (ht.hash_add e).1 :=
    w4.mem_iff.mpr (List.mem_cons_self _ _)
  obtain ⟨hbk, -⟩ := HashTable.mem_bucket_of_mem_tableList w1 hmem
  have hidx : (ht.hash_add e).1.idxOf e.hash_val = ht.idxOf e.hash_val := by
    unfold HashTable.idxOf
    rw [w6]
  rw [hidx] at hbk
  exact hbk

theorem C3_witness :
    (HashTable.initTable : HashTable Nat Nat).hash_find 1 1 = none ∧
      ((HashTable.initTable : HashTable Nat Nat).hash_add ⟨1, 1, 10⟩).2 = none ∧
      ((HashTable.initTable : HashTable Nat Nat).hash_add ⟨1, 1, 10⟩).1.count
        = (HashTable.initTable : HashTable Nat Nat).count + 1 ∧
      (⟨1, 1, 10⟩ : HashEntry Nat Nat) ∈
        (((HashTable.initTable : HashTable Nat Nat).hash_add ⟨1, 1, 10⟩).1.bucketAt
          ((HashTable.initTable : HashTable Nat Nat).idxOf 1)).inorder ∧
      ((HashTable.initTable : HashTable Nat Nat).hash_add ⟨1, 1, 10⟩).1.live
        = (HashTable.initTable : HashTable Nat Nat).live
            ++ [(HashTable.initTable : HashTable Nat Nat).idxOf 1] := by
  have h := C3_hash_add_spec (HashTable.WF_initTable (K := Nat) (V := Nat)) ⟨1, 1, 10⟩
  obtain ⟨-, h2⟩ := h
  obtain ⟨a1, a2, a3, a4, a5, a6⟩ := h2 (by decide)
  exact ⟨by decide, a1, a2, a3, a5 (by decide)⟩

/-- C4: iterating with iter() (node_first/node_next) visits each live entry
exactly once, in ascending (hash_val, key) order within each bucket and in
live-list (bucket-creation, tail-insert) order across buckets; the produced
(k, v) pairs are exactly the live entries.  Confirmed: the full iterator run
equals the map of the per-bucket in-order lists joined in live order, which
has no duplicates. -/
theorem C4_iteration_order_and_cover {K V : Type} [LinearOrder K]
    (hashf : K → Nat) {ht : HashTable K V} (hr : Reach hashf ht) :
    ht.iterList = (HashTable.tableList ht).map (fun e => (e.key, e.value)) ∧
      HashTable.tableList ht
        = joinL (ht.live.map fun i => (ht.bucketAt i).inorder) ∧
      (∀ i, List.Pairwise eLt (ht.bucketAt i).inorder) ∧
      (HashTable.tableList ht).Nodup := by
  have hwf := (reach_MWF hashf hr).wf
  exact ⟨HashTable.iterList_eq hwf, rfl, hwf.sorted, HashTable.tableList_nodup hwf⟩

theorem C4_witness :
    HashTable.iterList (mapInsert (fun k : Nat => k)
        (mapInsert (fun k : Nat => k) mapNew 2 20).1 1 10).1
      = [(2, 20), (1, 10)] := by
  have h := C4_iteration_order_and_cover (fun k : Nat => k)
    (Reach.ins 1 10 (Reach.ins 2 20 (Reach.cap 0)))
  exact h.1.trans (by decide)

/-- C5: after every operation sequence the live-bucket list holds exactly
the indices whose bucket root is non-null, each exactly once, and erasing
the last remaining node of a bucket removes that bucket from the live list.
Confirmed for every reachable table state. -/
theorem C5_live_bucket_list {K V : Type} [LinearOrder K]
    (hashf : K → Nat) {ht : HashTable K V} (hr : Reach hashf ht) :
    (∀ i, ht.bucketAt i ≠ .nil ↔ i ∈ ht.live) ∧ ht.live.Nodup ∧
      ∀ e ∈ HashTable.tableList ht,
        (ht.bucketAt (ht.idxOf e.hash_val)).inorder = [e] →
          (ht.hash_erase e).live = ht.live.erase (ht.idxOf e.hash_val) := by
  have hwf := (reach_MWF hashf hr).wf
  refine ⟨hwf.live_iff, hwf.live_nodup, ?_⟩
  intro e he hsing
  obtain ⟨pre, post, hsp⟩ := List.append_of_mem he
  obtain ⟨-, -, -, -, -, -, h7, -⟩ := HashTable.hash_erase_spec hwf hsp
  exact h7 hsing

theorem C5_witness :
    (mapInsert (fun k : Nat => k) mapNew 1 10).1.live = [1] ∧
      ((mapInsert (fun k : Nat => k) mapNew 1 10).1.hash_erase ⟨1, 1, 10⟩).live
        = ((mapInsert (fun k : Nat => k) mapNew 1 10).1.live).erase
            ((mapInsert (fun k : Nat => k) mapNew 1 10).1.idxOf 1) :=
  ⟨by decide,
   (C5_live_bucket_list (fun k : Nat => k)
      (Reach.ins 1 10 (Reach.cap 0))).2.2 ⟨1, 1, 10⟩ (by decide) (by decide)⟩

/-- C6: destroying the map destroys each stored value exactly once: the
clear/drop loop reads out every stored pair exactly once (its collected list
is a permutation of the duplicate-free entry list and the final table is
empty), and a full into_iter drain, whose next() erases each yielded entry,
yields exactly the entry list and leaves the table empty, so every pair is
dropped exactly once whether yielded or drained.  Confirmed for every
reachable table state. -/
theorem C6_destroy_each_value_once {K V : Type} [LinearOrder K]
    (hashf : K → Nat) {ht : HashTable K V} (hr : Reach hashf ht) :
    List.Perm (HashTable.clearRec ht).2 (HashTable.tableList ht) ∧
      (HashTable.tableList ht).Nodup ∧
      HashTable.tableList (HashTable.clearRec ht).1 = [] ∧
      (HashTable.intoAll ht ht.count ht.node_first).1
        = (HashTable.tableList ht).map (fun e => (e.key, e.value)) ∧
      HashTable.tableList (HashTable.intoAll ht ht.count ht.node_first).2 = [] := by
  have hwf := (reach_MWF hashf hr).wf
  obtain ⟨-, -, w3, -, w5, -, -, -⟩ := HashTable.clearRec_spec hwf
  have hdrop : List.Perm (HashTable.clearRec ht).2 (HashTable.tableList ht) := by
    rw [w5]
    exact HashTable.collectEntries_perm_tableList ht
  have hi := HashTable.intoAll_drain (HashTable.tableList ht) ht hwf rfl
  rw [hwf.cnt, HashTable.node_first_head hwf]
  exact ⟨hdrop, HashTable.tableList_nodup hwf, w3, hi.1, hi.2.1⟩

theorem C6_witness :
    List.Perm
      (HashTable.clearRec (mapInsert (fun k : Nat => k)
        (mapInsert (fun k : Nat => k) mapNew 2 20).1 1 10).1).2
      (HashTable.tableList (mapInsert (fun k : Nat => k)
        (mapInsert (fun k : Nat => k) mapNew 2 20).1 1 10).1) ∧
    (HashTable.intoAll (mapInsert (fun k : Nat => k)
        (mapInsert (fun k : Nat => k) mapNew 2 20).1 1 10).1
        (mapInsert (fun k : Nat => k)
          (mapInsert (fun k : Nat => k) mapNew 2 20).1 1 10).1.count
        (mapInsert (fun k : Nat => k)
          (mapInsert (fun k : Nat => k) mapNew 2 20).1 1 10).1.node_first).1
      = (HashTable.tableList (mapInsert (fun k : Nat => k)
          (mapInsert (fun k : Nat => k) mapNew 2 20).1 1 10).1).map
          (fun e => (e.key, e.value)) ∧
    HashTable.tableList
      (HashTable.intoAll (mapInsert (fun k : Nat => k)
        (mapInsert (fun k : Nat => k) mapNew 2 20).1 1 10).1
        (mapInsert (fun k : Nat => k)
          (mapInsert (fun k : Nat => k) mapNew 2 20).1 1 10).1.count
        (mapInsert (fun k : Nat => k)
          (mapInsert (fun k : Nat => k) mapNew 2 20).1 1 10).1.node_first).2 = [] := by
  have h := C6_destroy_each_value_once (fun k : Nat => k)
    (Reach.ins 1 10 (Reach.ins 2 20 (Reach.cap 0)))
  exact ⟨h.1, h.2.2.2.1, h.2.2.2.2⟩

/-- C7 (corrected): capacity never decreases across insert or reserve; for
every reachable map with len ≥ 1 the halving loop of shrink_to_fit reaches
the smallest power-of-two index_size s with count × 6 / 4 ≤ s, shrink_to_fit
returns the map unchanged when s is not below the current index_size and
otherwise rebuilds it with the same count and entry multiset and with
capacity still at least count × 6 / 4.  The claim as stated also covers
len = 0, where the halving loop never exits (see the counterexample), so the
len ≥ 1 proviso is required. -/
theorem C7_capacity_monotone_and_shrink {K V : Type} [LinearOrder K]
    (hashf : K → Nat) {ht : HashTable K V} (hr : Reach hashf ht)
    (k : K) (v : V) (n : Nat) :
    capacity ht ≤ capacity (mapInsert hashf ht k v).1 ∧
      capacity ht ≤ capacity (mapReserve ht n) ∧
      (1 ≤ mapLen ht →
        ∃ s j2, shrinkLoop (ht.index_size + 1) (calc_limit ht.count) ht.index_size
            = some s ∧
          s = 2 ^ j2 ∧ calc_limit ht.count ≤ s ∧
          (∀ j3, calc_limit ht.count ≤ 2 ^ j3 → s ≤ 2 ^ j3) ∧
          (ht.index_size ≤ s →
            shrinkToFitFuel hashf (ht.index_size + 1) ht = some ht) ∧
          (s < ht.index_size →
            ∃ ht2, shrinkToFitFuel hashf (ht.index_size + 1) ht = some ht2 ∧
              calc_limit (mapLen ht2) ≤ capacity ht2 ∧ mapLen ht2 = mapLen ht ∧
              List.Perm (HashTable.tableList ht2) (HashTable.tableList ht))) := by
  have hm := reach_MWF hashf hr
  refine ⟨(mapInsert_MWF hashf hm k v).2, (mapReserve_MWF hashf hm n).2, ?_⟩
  intro hpos
  obtain ⟨s, j2, r1, r2, r3, r4, r5, r6⟩ := shrinkToFit_spec hashf hm hpos
  refine ⟨s, j2, r1, r2, r3, r4, r5, ?_⟩
  intro hlt
  obtain ⟨ht2, q1, q2, q3, q4, q5⟩ := r6 hlt
  exact ⟨ht2, q1, q5, q3, q4⟩

theorem C7_witness :
    1 ≤ mapLen (mapInsert (fun k : Nat => k) mapNew 1 10).1 ∧
      capacity (mapInsert (fun k : Nat => k) mapNew 1 10).1 ≤
        capacity (mapInsert (fun k : Nat => k)
          (mapInsert (fun k : Nat => k) mapNew 1 10).1 2 20).1 ∧
      ∃ ht2, shrinkToFitFuel (fun k : Nat => k)
            ((mapInsert (fun k : Nat => k) mapNew 1 10).1.index_size + 1)
            (mapInsert (fun k : Nat => k) mapNew 1 10).1 = some ht2 ∧
          mapLen ht2 = mapLen (mapInsert (fun k : Nat => k) mapNew 1 10).1 := by
  have h := C7_capacity_monotone_and_shrink (fun k : Nat => k)
    (Reach.ins 1 10 (Reach.cap 0)) 2 20 0
  refine ⟨by decide, h.1, ?_⟩
  obtain ⟨s, j2, r1, r2, r3, r4, r5, r6⟩ := h.2.2 (by decide)
  have hs1 : s ≤ 1 := r4 0 (by decide)
  have hsz : (mapInsert (fun k : Nat => k) (withCapacity 0) 1 10).1.index_size = 8 := by
    decide
  obtain ⟨ht2, q1, q2, q3, q4⟩ := r6 (by omega)
  exact ⟨ht2, q1, q3⟩

/-- C7 counterexample: the unconditional claim fails at len = 0 — for the
empty map the computed limit is 0, the halving loop of shrink_to_fit never
exits (the fuelled model returns none for every fuel), and no smallest
power-of-two index size is ever produced. -/
theorem C7_counterexample_empty_map :
    mapLen (mapNew : HashTable Nat Nat) = 0 ∧
      ∀ fuel, shrinkToFitFuel (fun k : Nat => k) fuel (mapNew : HashTable Nat Nat)
        = none := by
  refine ⟨by decide, ?_⟩
  intro fuel
  unfold shrinkToFitFuel
  have hl : calc_limit (mapNew : HashTable Nat Nat).count = 0 := by decide
  rw [hl, shrinkLoop_zero_limit]

/-- C8: hash_swap with a fresh external index of nbytes bytes picks as new
index_size the largest power of two with index_size × sizeof(HashIndex) ≤
nbytes, and at least 1, re-inserts every node (count preserved) and passes
back the previous external index (null — false — when the previous index was
the inline array); hash_swap with the current index is a no-op returning it;
hash_swap with null reverts to the inline init[8] array, again preserving
count.  Confirmed against the model. -/
theorem C8_hash_swap_spec {K V : Type} [LinearOrder K] {ht : HashTable K V}
    (hwf : HashTable.WF ht) (n : Nat) :
    ((ht.hash_swap (.fresh n)).1.index_size
        = HashTable.computeIndexSize HashTable.hashIndexBytes n ∧
      (∃ j, (ht.hash_swap (.fresh n)).1.index_size = 2 ^ j) ∧
      1 ≤ (ht.hash_swap (.fresh n)).1.index_size ∧
      (HashTable.hashIndexBytes * (ht.hash_swap (.fresh n)).1.index_size ≤ n ∨
        (ht.hash_swap (.fresh n)).1.index_size = 1) ∧
      (∀ j, HashTable.hashIndexBytes * 2 ^ j ≤ n →
        2 ^ j ≤ (ht.hash_swap (.fresh n)).1.index_size) ∧
      (ht.hash_swap (.fresh n)).1.count = ht.count ∧
      (ht.hash_swap (.fresh n)).2 = !ht.is_inline) ∧
    ht.hash_swap .same = (ht, true) ∧
    ((ht.hash_swap .toInit).1.count = ht.count ∧
      (ht.is_inline = true → ht.hash_swap .toInit = (ht, false)) ∧
      (ht.is_inline = false → (ht.hash_swap .toInit).1.index_size = 8 ∧
        (ht.hash_swap .toInit).2 = true)) := by
  obtain ⟨f1, f2, f3, f4, f5, f6⟩ := HashTable.hash_swap_fresh_spec hwf n
  obtain ⟨⟨j0, hj0⟩, hle, hmax⟩ :=
    HashTable.computeIndexSize_spec HashTable.hashIndexBytes n
      HashTable.hashIndexBytes_pos
  obtain ⟨t1, t2, t3, t4, t5, t6⟩ := HashTable.hash_swap_toInit_spec hwf
  refine ⟨⟨f4, ?_, ?_, ?_, ?_, f2, f6⟩, HashTable.hash_swap_same_spec ht, t2, t5, t6⟩
  · exact ⟨j0, by rw [f4, hj0]⟩
  · rw [f4, hj0]
    exact Nat.one_le_two_pow
  · rw [f4]
    exact hle
  · intro j hj
    rw [f4]
    exact hmax j hj

theorem C8_witness :
    ((HashTable.initTable : HashTable Nat Nat).hash_swap (.fresh 96)).1.index_size
        = HashTable.computeIndexSize HashTable.hashIndexBytes 96 ∧
      HashTable.computeIndexSize HashTable.hashIndexBytes 96 = 4 ∧
      ((HashTable.initTable : HashTable Nat Nat).hash_swap (.fresh 96)).1.count
        = (HashTable.initTable : HashTable Nat Nat).count ∧
      ((HashTable.initTable : HashTable Nat Nat).hash_swap (.fresh 96)).2
        = !(HashTable.initTable : HashTable Nat Nat).is_inline ∧
      (HashTable.initTable : HashTable Nat Nat).hash_swap .same
        = ((HashTable.initTable : HashTable Nat Nat), true) := by
  have h := C8_hash_swap_spec (HashTable.WF_initTable (K := Nat) (V := Nat)) 96
  have h4 : HashTable.computeIndexSize HashTable.hashIndexBytes 96 = 4 :=
    HashTable.computeIndexSize_exact (b := HashTable.hashIndexBytes)
      (by decide) (show (4 : Nat) = 2 ^ 2 by decide)
  exact ⟨h.1.1, h4, h.1.2.2.2.2.2.1, h.1.2.2.2.2.2.2, h.2.1⟩

/-- C9: for a key not present in the map, get returns the absent value None
and remove returns None leaving the map unchanged, while indexing raises the
fatal message "no entry found for key".  Confirmed against the model, where
the Index panic is the error value carrying the panic message. -/
theorem C9_missing_key {K V : Type} [LinearOrder K] (hashf : K → Nat)
    (ht : HashTable K V) (q : K) (habs : mapContains hashf ht q = false) :
    mapGet hashf ht q = none ∧ (mapRemove hashf ht q).2 = none ∧
      (mapRemove hashf ht q).1 = ht ∧
      mapIndex hashf ht q = Except.error "no entry found for key" := by
  have hfind : ht.hash_find (hashf q) q = none := by
    unfold mapContains at habs
    cases hf : ht.hash_find (hashf q) q with
    | none => rfl
    | some e =>
      rw [hf] at habs
      cases habs
  have hget : mapGet hashf ht q = none := by
    unfold mapGet
    rw [hfind]
    rfl
  refine ⟨hget, ?_, ?_, ?_⟩
  · unfold mapRemove
    rw [hfind]
  · unfold mapRemove
    rw [hfind]
  · unfold mapIndex
    rw [hget]

theorem C9_witness :
    mapContains (fun k : Nat => k) (mapNew : HashTable Nat Nat) 5 = false ∧
      mapGet (fun k : Nat => k) (mapNew : HashTable Nat Nat) 5 = none ∧
      (mapRemove (fun k : Nat => k) (mapNew : HashTable Nat Nat) 5).2 = none ∧
      (mapRemove (fun k : Nat => k) (mapNew : HashTable Nat Nat) 5).1
        = (mapNew : HashTable Nat Nat) ∧
      mapIndex (fun k : Nat => k) (mapNew : HashTable Nat Nat) 5
        = Except.error "no entry found for key" :=
  ⟨by decide, C9_missing_key (fun k : Nat => k) mapNew 5 (by decide)⟩

/-- C10: the claim that shrink_to_fit returns for every map state is false:
when len() = 0 the computed limit count × 6 / 4 is 0 and the halving-loop
condition new_index_size / 2 ≥ 0 always holds, so the loop never exits — in
the fuelled model the loop returns none for every fuel. -/
theorem C10_shrink_to_fit_divergence {K V : Type} [LinearOrder K]
    (hashf : K → Nat) (ht : HashTable K V) (h0 : mapLen ht = 0) :
    ∀ fuel, shrinkToFitFuel hashf fuel ht = none := by
  intro fuel
  unfold shrinkToFitFuel
  have hl : calc_limit ht.count = 0 := by
    unfold mapLen at h0
    unfold calc_limit
    rw [h0]
  rw [hl, shrinkLoop_zero_limit]

theorem C10_witness :
    mapLen (mapNew : HashTable Nat Nat) = 0 ∧
      shrinkToFitFuel (fun k : Nat => k) 1000 (mapNew : HashTable Nat Nat) = none :=
  ⟨by decide,
   C10_shrink_to_fit_divergence (fun k : Nat => k) mapNew (by decide) 1000⟩
